import Mathlib

/-!
# Account staging layer of the ledger (`internal/ledger/account.go`)

A shallow embedding of the account working set and of the commit pass that
drains it into a write batch and a journal entry.

Conventions of the embedding:

* a Go `[]byte` is an `Option (List Byte)`: `none` is the nil slice and
  `some l` a non-nil slice, possibly of length 0.  The source tests both
  `x != nil` and `bytes.Equal`, which differ exactly on the empty non-nil slice;
* a Go `string` is its sequence of bytes;
* a Go `map[string][]byte` is a duplicate-free association list; the order in
  which `range` visits it is an extra argument of the function that ranges;
* a function that can panic returns an `Option`, `none` being the panic;
* `uint64` fields are natural numbers (the code never does arithmetic on them).
-/

namespace Ledger

/-- One byte. -/
abbrev Byte := Fin 256

/-- Go byte slice: `none` is nil, `some l` is a non-nil slice holding `l`. -/
abbrev GoBytes := Option (List Byte)

/-- Go string, as its bytes. -/
abbrev GoString := List Byte

/-- Contents of a slice, the nil slice having none. -/
def GoBytes.data (b : GoBytes) : List Byte := b.getD []

/-- Go `bytes.Equal`: equality of contents, nil and empty being equal. -/
def bytes.Equal (a b : GoBytes) : Bool := decide (a.data = b.data)

/-- Go `a < b` on strings (and `bytes.Compare(a, b) < 0`): lexicographic byte order. -/
def bytesLess : List Byte → List Byte → Bool
  | [], [] => false
  | [], _ :: _ => true
  | _ :: _, [] => false
  | a :: as, b :: bs => decide (a < b) || (decide (a = b) && bytesLess as bs)

/-- Loop of `bytesPrefix`, entered with `n = i + 1` for the index `i` examined next. -/
def bytesPrefix.loop (p : List Byte) : Nat → GoBytes
  | 0 => none
  | i + 1 =>
    let c := p.getD i 0
    if c < 0xff then
      some ((p.take (i + 1)).set i (c + 1))
    else
      bytesPrefix.loop p i

/-- Source `bytesPrefix`: the pair of bounds of the key range starting with the argument. -/
def bytesPrefix (pfx : GoBytes) : GoBytes × GoBytes :=
  (pfx, bytesPrefix.loop pfx.data pfx.data.length)

/-- The limit that `bytesPrefix` returns, computed from the front of the list; used to
reason about the loop, which scans from the back. -/
def limitOf : List Byte → GoBytes
  | [] => none
  | a :: as =>
    match limitOf as with
    | some l => some (a :: l)
    | none => if a < 0xff then some [a + 1] else none

/-! ## Go maps -/

/-- Go `map[string][]byte`: an association list without duplicate keys. -/
structure GoMap where
  entries : List (GoString × GoBytes)
  nodup : (entries.map Prod.fst).Nodup

/-- Result of `make(map[string][]byte)`. -/
def GoMap.empty : GoMap := ⟨[], List.nodup_nil⟩

/-- Two-valued lookup `v, ok := m[k]`: `none` when the key is not in the map. -/
def GoMap.get (m : GoMap) (k : GoString) : Option GoBytes := m.entries.lookup k

/-- One-valued lookup `m[k]`: the nil slice when the key is not in the map. -/
def GoMap.index (m : GoMap) (k : GoString) : GoBytes := (m.get k).getD none

/-- Assignment `m[k] = v`. -/
def GoMap.set (m : GoMap) (k : GoString) (v : GoBytes) : GoMap :=
  ⟨(k, v) :: m.entries.filter (fun e => e.1 != k), by
    rw [List.map_cons, List.nodup_cons]
    constructor
    · simp
    · exact m.nodup.sublist (List.filter_sublist _ |>.map _)⟩

/-- Go `len(m)`. -/
def GoMap.len (m : GoMap) : Nat := m.entries.length

/-- Keys of the map. -/
def GoMap.keys (m : GoMap) : List GoString := m.entries.map Prod.fst

/-! ## `encoding/hex` -/

/-- Go `hextable`, the string "0123456789abcdef". -/
def hextable : List Byte := [48, 49, 50, 51, 52, 53, 54, 55, 56, 57, 97, 98, 99, 100, 101, 102]

/-- Go `hex.EncodeToString`: two lowercase hex digits per byte, high nibble first. -/
def hex.EncodeToString : List Byte → GoString
  | [] => []
  | v :: rest =>
    hextable.getD (v.val / 16) 0 :: hextable.getD (v.val % 16) 0 :: hex.EncodeToString rest

/-- Value of one hex digit (either case), `none` for any other byte. -/
def fromHexChar (c : Byte) : Option Nat :=
  if 48 ≤ c.val ∧ c.val ≤ 57 then some (c.val - 48)
  else if 97 ≤ c.val ∧ c.val ≤ 102 then some (c.val - 97 + 10)
  else if 65 ≤ c.val ∧ c.val ≤ 70 then some (c.val - 65 + 10)
  else none

/-- Go `hex.DecodeString`: `none` when it returns an error (odd length or a non-hex byte). -/
def hex.DecodeString : GoString → Option (List Byte)
  | [] => some []
  | [_] => none
  | p :: q :: rest =>
    match fromHexChar p, fromHexChar q, hex.DecodeString rest with
    | some a, some b, some r => some (Fin.ofNat (a * 16 + b) :: r)
    | _, _, _ => none

/-- Insertion of one string into an ascending list, before the first string that is not
smaller. -/
def insertString (s : GoString) : List GoString → List GoString
  | [] => [s]
  | t :: rest => if bytesLess t s then t :: insertString s rest else s :: t :: rest

/-- Go `sort.Strings`: the strings in ascending byte order (by insertion; the ascending
arrangement of a list of strings is unique). -/
def sort.Strings : List GoString → List GoString
  | [] => []
  | s :: rest => insertString s (sort.Strings rest)

/-! ## Collaborators outside `account.go` -/

/-- Outcome of `storage.Storage.Get`: a value with a nil error, the `ErrNotFound` error,
or any other error. -/
inductive GetResult where
  | ok (val : GoBytes)
  | notFound
  | fault

/-- Modelled from the spec: the storage handle `storage.Storage` (package `pkg/storage`,
not among the sources), with the point read `Get` and the cursor `Iterator(begin, end)`,
given by the values it yields in order. -/
structure Storage where
  Get : List Byte → GetResult
  Iterator : GoBytes → GoBytes → List GoBytes

/-- One operation recorded in a `storage.Batch`. -/
inductive BatchOp where
  | Put (key : List Byte) (value : GoBytes)
  | Delete (key : List Byte)
  deriving DecidableEq

/-- Modelled from the spec: a write batch `storage.Batch`, as the operations added so far. -/
abbrev Batch := List BatchOp

/-- Address `types.Address`, a 20-byte array. -/
structure Address where
  raw : List Byte
  len : raw.length = 20

/-- Method `Address.Bytes`. -/
def Address.Bytes (a : Address) : List Byte := a.raw

/-- Modelled from the spec: `Address.Hex`, the 40 lowercase hex digits of the address
without a `0x` in front. -/
def Address.Hex (a : Address) : GoString := hex.EncodeToString a.raw

/-- Modelled from the spec: the marker "a-" of account metadata keys. -/
def accountKey : GoString := [97, 45]

/-- Modelled from the spec: the marker "c-" of contract code keys. -/
def codeKey : GoString := [99, 45]

/-- Modelled from the spec: `compositeKey`, the marker followed by the printed value. -/
def compositeKey (marker : GoString) (value : GoString) : List Byte := marker ++ value

/-- Record `innerAccount`. -/
structure innerAccount where
  Nonce : Nat
  Balance : Nat
  CodeHash : GoBytes
  deriving DecidableEq

/-- Library functions the code calls: `crypto/sha256.Sum256`, whose result is a 32-byte
array, and `encoding/json.Marshal` on an `innerAccount` (`none` when it returns an
error). -/
structure Env where
  sha256 : List Byte → List Byte
  sha256_len : ∀ d, (sha256 d).length = 32
  jsonMarshal : innerAccount → Option (List Byte)

/-- Modelled from the spec: the journal entry `journal` (declared in `journal.go`, not
among the sources), with the fields `getJournalIfModified` assigns.  A nil `PrevStates`
map and an empty one are both the empty map. -/
structure journal where
  Address : Address
  AccountChanged : Bool
  PrevAccount : Option innerAccount
  CodeChanged : Bool
  PrevCode : GoBytes
  PrevStates : GoMap

/-! ## The account working set -/

/-- Record `Account`. -/
structure Account where
  Addr : Address
  originAccount : Option innerAccount
  dirtyAccount : Option innerAccount
  originState : GoMap
  dirtyState : GoMap
  originCode : GoBytes
  dirtyCode : GoBytes
  dirtyStateHash : List Byte
  ldb : Storage

/-- Source `newAccount`. -/
def newAccount (ldb : Storage) (addr : Address) : Account :=
  { Addr := addr
    originAccount := none
    dirtyAccount := none
    originState := GoMap.empty
    dirtyState := GoMap.empty
    originCode := none
    dirtyCode := none
    dirtyStateHash := List.replicate 32 0
    ldb := ldb }

/-- Source `Account.GetState`: the account after the call and the two results. -/
def Account.GetState (o : Account) (key : List Byte) : Option (Account × Bool × GoBytes) :=
  let hexKey := hex.EncodeToString key
  match o.dirtyState.get hexKey with
  | some val => some (o, val.isSome, val)
  | none =>
    match o.originState.get hexKey with
    | some val => some (o, val.isSome, val)
    | none =>
      match o.ldb.Get (o.Addr.Bytes ++ key) with
      | GetResult.fault => none
      | GetResult.notFound =>
        some ({ o with originState := o.originState.set hexKey none }, false, none)
      | GetResult.ok val =>
        some ({ o with originState := o.originState.set hexKey val }, val.isSome, val)

/-- Source `Account.SetState`. -/
def Account.SetState (o : Account) (key : List Byte) (value : GoBytes) : Option Account :=
  match o.GetState key with
  | none => none
  | some (o1, _, _) =>
    some { o1 with dirtyState := o1.dirtyState.set (hex.EncodeToString key) value }

/-- Source `copyOrNewIfEmpty`. -/
def copyOrNewIfEmpty (o : Option innerAccount) : innerAccount :=
  match o with
  | none => { Nonce := 0, Balance := 0, CodeHash := none }
  | some a => { Nonce := a.Nonce, Balance := a.Balance, CodeHash := a.CodeHash }

/-- Source `Account.SetCodeAndHash`. -/
def Account.SetCodeAndHash (E : Env) (o : Account) (code : GoBytes) : Account :=
  let ret := E.sha256 code.data
  let d := match o.dirtyAccount with
    | none => copyOrNewIfEmpty o.originAccount
    | some d => d
  { o with dirtyAccount := some { d with CodeHash := some ret }, dirtyCode := code }

/-- Source `Account.CodeHash`. -/
def Account.CodeHash (o : Account) : GoBytes :=
  match o.dirtyAccount with
  | some d => d.CodeHash
  | none =>
    match o.originAccount with
    | some a => a.CodeHash
    | none => none

/-- Source `Account.Code`: the account after the call and the code returned. -/
def Account.Code (o : Account) : Option (Account × GoBytes) :=
  if o.dirtyCode.isSome then some (o, o.dirtyCode)
  else if o.originCode.isSome then some (o, o.originCode)
  else if bytes.Equal o.CodeHash none then some (o, none)
  else
    match o.ldb.Get (compositeKey codeKey o.Addr.Hex) with
    | GetResult.fault => none
    | GetResult.notFound => some ({ o with originCode := none, dirtyCode := none }, none)
    | GetResult.ok code => some ({ o with originCode := code, dirtyCode := code }, code)

/-- Source `Account.SetNonce`. -/
def Account.SetNonce (o : Account) (nonce : Nat) : Account :=
  let d := match o.dirtyAccount with
    | none => copyOrNewIfEmpty o.originAccount
    | some d => d
  { o with dirtyAccount := some { d with Nonce := nonce } }

/-- Source `Account.GetNonce`. -/
def Account.GetNonce (o : Account) : Nat :=
  match o.dirtyAccount with
  | some d => d.Nonce
  | none =>
    match o.originAccount with
    | some a => a.Nonce
    | none => 0

/-- Source `Account.GetBalance`. -/
def Account.GetBalance (o : Account) : Nat :=
  match o.dirtyAccount with
  | some d => d.Balance
  | none =>
    match o.originAccount with
    | some a => a.Balance
    | none => 0

/-- Source `Account.SetBalance`. -/
def Account.SetBalance (o : Account) (balance : Nat) : Account :=
  let d := match o.dirtyAccount with
    | none => copyOrNewIfEmpty o.originAccount
    | some d => d
  { o with dirtyAccount := some { d with Balance := balance } }

/-- Source `Account.Query`: the values under the slot keys that start with the argument,
each copied into a fresh slice. -/
def Account.Query (o : Account) (pfx : GoString) : Bool × List GoBytes :=
  let bounds := bytesPrefix (some (o.Addr.Bytes ++ pfx))
  let ret := (o.ldb.Iterator bounds.1 bounds.2).map (fun v => (some v.data : GoBytes))
  (ret.length != 0, ret)

/-- Source `innerAccountChanged`. -/
def innerAccountChanged (account0 account1 : Option innerAccount) : Bool :=
  match account1 with
  | none => false
  | some a1 =>
    match account0 with
    | some a0 =>
      if a0.Nonce = a1.Nonce ∧ a0.Balance = a1.Balance ∧
          bytes.Equal a0.CodeHash a1.CodeHash = true then false else true
    | none => true

/-- Source `innerAccount.Marshal`. -/
def innerAccount.Marshal (E : Env) (o : innerAccount) : Option (List Byte) :=
  E.jsonMarshal { Nonce := o.Nonce, Balance := o.Balance, CodeHash := o.CodeHash }

/-- First loop of `getStateJournalAndComputeHash` (lines 231-247), over the entries of
`dirtyState` in the order `range` yields them; the state is the batch, `prevStates` and
`dirtyStateKeys`. -/
def Account.rangeDirtyState (o : Account) :
    List (GoString × GoBytes) → Batch × GoMap × List GoString →
      Option (Batch × GoMap × List GoString)
  | [], st => some st
  | (key, val) :: rest, (ldbBatch, prevStates, dirtyStateKeys) =>
    let origVal := o.originState.index key
    if !bytes.Equal origVal val then
      match hex.DecodeString key with
      | none => none
      | some byteKey =>
        let ldbBatch1 :=
          if val.isSome then ldbBatch ++ [BatchOp.Put (o.Addr.Bytes ++ byteKey) val]
          else ldbBatch ++ [BatchOp.Delete (o.Addr.Bytes ++ byteKey)]
        o.rangeDirtyState rest (ldbBatch1, prevStates.set key origVal, dirtyStateKeys ++ [key])
    else
      o.rangeDirtyState rest (ldbBatch, prevStates, dirtyStateKeys)

/-- Second loop of `getStateJournalAndComputeHash` (lines 251-254): the hash input. -/
def Account.dirtyStateData (o : Account) : List GoString → List Byte → List Byte
  | [], acc => acc
  | key :: rest, acc => o.dirtyStateData rest (acc ++ key ++ (o.dirtyState.index key).data)

/-- Source `Account.getStateJournalAndComputeHash`; `order` is the sequence of entries
that `range o.dirtyState` yields.  The results are the account after the call, the batch
and the returned `prevStates`. -/
def Account.getStateJournalAndComputeHash (E : Env) (o : Account)
    (order : List (GoString × GoBytes)) (ldbBatch : Batch) : Option (Account × Batch × GoMap) :=
  match o.rangeDirtyState order (ldbBatch, GoMap.empty, []) with
  | none => none
  | some (ldbBatch1, prevStates, dirtyStateKeys) =>
    let sorted := sort.Strings dirtyStateKeys
    let data := o.dirtyStateData sorted []
    some ({ o with dirtyStateHash := E.sha256 data }, ldbBatch1, prevStates)

/-- Lines 181-189 of `getJournalIfModified`: the metadata diff. -/
def Account.journalAccount (E : Env) (o : Account) (ldbBatch : Batch) (entry : journal) :
    Option (Batch × journal) :=
  if innerAccountChanged o.originAccount o.dirtyAccount then
    match o.dirtyAccount with
    | none => none
    | some d =>
      match d.Marshal E with
      | none => none
      | some data =>
        some (ldbBatch ++ [BatchOp.Put (compositeKey accountKey o.Addr.Hex) (some data)],
          { entry with AccountChanged := true, PrevAccount := o.originAccount })
  else some (ldbBatch, entry)

/-- Lines 191-202 of `getJournalIfModified`: loading the origin code. -/
def Account.loadOriginCode (o : Account) : Option Account :=
  if o.originCode.isNone &&
      !(o.originAccount.isNone ||
        (match o.originAccount with
          | some a => a.CodeHash.isNone
          | none => false)) then
    match o.ldb.Get (compositeKey codeKey o.Addr.Hex) with
    | GetResult.fault => none
    | GetResult.notFound => some { o with originCode := none }
    | GetResult.ok code => some { o with originCode := code }
  else some o

/-- Lines 204-212 of `getJournalIfModified`: the code diff. -/
def Account.journalCode (o : Account) (ldbBatch : Batch) (entry : journal) : Batch × journal :=
  if !bytes.Equal o.originCode o.dirtyCode then
    let ldbBatch1 :=
      if o.dirtyCode.isSome then
        ldbBatch ++ [BatchOp.Put (compositeKey codeKey o.Addr.Hex) o.dirtyCode]
      else ldbBatch ++ [BatchOp.Delete (compositeKey codeKey o.Addr.Hex)]
    (ldbBatch1, { entry with CodeChanged := true, PrevCode := o.originCode })
  else (ldbBatch, entry)

/-- Lines 215-223 of `getJournalIfModified`: recording the slot pre-images and returning
the entry, or nil when nothing changed. -/
def journalStates (entry : journal) (prevStates : GoMap) : Option journal :=
  let entry1 : journal :=
    if prevStates.len != 0 then { entry with PrevStates := prevStates } else entry
  if entry1.AccountChanged || entry1.CodeChanged || entry1.PrevStates.len != 0 then
    some entry1
  else none

/-- Source `Account.getJournalIfModified`; `order` is the sequence of entries that
`range o.dirtyState` yields.  The results are the account after the call, the batch and
the returned entry (`none` for nil). -/
def Account.getJournalIfModified (E : Env) (o : Account)
    (order : List (GoString × GoBytes)) (ldbBatch : Batch) :
    Option (Account × Batch × Option journal) :=
  let entry : journal :=
    { Address := o.Addr, AccountChanged := false, PrevAccount := none,
      CodeChanged := false, PrevCode := none, PrevStates := GoMap.empty }
  match o.journalAccount E ldbBatch entry with
  | none => none
  | some (ldbBatch1, entry1) =>
    match o.loadOriginCode with
    | none => none
    | some o1 =>
      match o1.getStateJournalAndComputeHash E order (o1.journalCode ldbBatch1 entry1).1 with
      | none => none
      | some (o2, ldbBatch3, prevStates) =>
        some (o2, ldbBatch3, journalStates (o1.journalCode ldbBatch1 entry1).2 prevStates)

/-! ## Sequences of calls -/

/-- A sequence of `SetState` calls, in order. -/
def Account.setStates (o : Account) : List (List Byte × GoBytes) → Option Account
  | [] => some o
  | (key, value) :: rest =>
    match o.SetState key value with
    | none => none
    | some o1 => o1.setStates rest

/-- One call on an account; the commit call carries the order in which `range` visits
`dirtyState` and the batch it is given. -/
inductive Call where
  | GetState (key : List Byte)
  | SetState (key : List Byte) (value : GoBytes)
  | SetCodeAndHash (code : GoBytes)
  | Code
  | SetNonce (nonce : Nat)
  | SetBalance (balance : Nat)
  | getJournalIfModified (order : List (GoString × GoBytes)) (ldbBatch : Batch)

/-- The account after one call, `none` when the call panics. -/
def Account.call (E : Env) (o : Account) : Call → Option Account
  | Call.GetState key => (o.GetState key).map (fun r => r.1)
  | Call.SetState key value => o.SetState key value
  | Call.SetCodeAndHash code => some (o.SetCodeAndHash E code)
  | Call.Code => o.Code.map (fun r => r.1)
  | Call.SetNonce nonce => some (o.SetNonce nonce)
  | Call.SetBalance balance => some (o.SetBalance balance)
  | Call.getJournalIfModified order ldbBatch =>
    (o.getJournalIfModified E order ldbBatch).map (fun r => r.1)

/-- The account after a sequence of calls, `none` when one of them panics. -/
def Account.calls (E : Env) (o : Account) : List Call → Option Account
  | [] => some o
  | c :: rest =>
    match o.call E c with
    | none => none
    | some o1 => o1.calls E rest

/-! ## An in-memory key-value store -/

/-- Modelled from the spec: the content of a key-value store (section 4.1: point get,
ordered cursor over a key range, batch of Put and Delete), as an association list in
which the first entry of a key is its value. -/
abbrev KV := List (List Byte × List Byte)

/-- Value held under a key, `none` when the store has no such key. -/
def KV.get (s : KV) (k : List Byte) : Option (List Byte) := s.lookup k

/-- Store after `Put(k, v)`. -/
def KV.put (s : KV) (k v : List Byte) : KV := (k, v) :: s.filter (fun e => e.1 != k)

/-- Store after `Delete(k)`. -/
def KV.delete (s : KV) (k : List Byte) : KV := s.filter (fun e => e.1 != k)

/-- Whether a key lies in the range from `b` (inclusive) to `e` (exclusive, nil for
no upper bound). -/
def KV.inRange (b e : GoBytes) (k : List Byte) : Bool :=
  !bytesLess k b.data &&
    match e with
    | none => true
    | some l => bytesLess k l

/-- Values of the keys in a range, in ascending key order. -/
def KV.iterate (s : KV) (b e : GoBytes) : List GoBytes :=
  (sort.Strings ((s.map Prod.fst).eraseDups.filter (KV.inRange b e))).filterMap
    (fun k => (s.get k).map some)

/-- Storage handle that reads the store `s`: a held value comes back as a non-nil
slice, a missing key as `ErrNotFound`. -/
def KV.toStorage (s : KV) : Storage :=
  { Get := fun k =>
      match s.get k with
      | some v => GetResult.ok (some v)
      | none => GetResult.notFound
    Iterator := fun b e => s.iterate b e }

/-- Store after one batch operation. -/
def KV.applyOp (s : KV) : BatchOp → KV
  | BatchOp.Put k v => s.put k v.data
  | BatchOp.Delete k => s.delete k

/-- Store after committing a batch: its operations applied in order. -/
def KV.commit (s : KV) (b : Batch) : KV := b.foldl KV.applyOp s

/-- Modelled from the spec: re-applying one slot pre-image of a journal entry under the
slot key of the account (section 3, journal entry): Put when the pre-image is present,
Delete when it is absent. -/
def revertSlot (addr : Address) (s : KV) (e : GoString × GoBytes) : KV :=
  match hex.DecodeString e.1 with
  | none => s
  | some byteKey =>
    match e.2 with
    | some v => s.put (addr.Bytes ++ byteKey) v
    | none => s.delete (addr.Bytes ++ byteKey)

/-- Modelled from the spec: re-applying every slot pre-image of a returned journal
entry; a nil entry has none. -/
def revertSlots (addr : Address) (entry : Option journal) (s : KV) : KV :=
  match entry with
  | none => s
  | some j => j.PrevStates.entries.foldl (revertSlot addr) s

/-- Pre-image map of a returned journal entry, empty for a nil entry. -/
def prevStatesOf (entry : Option journal) : GoMap :=
  match entry with
  | none => GoMap.empty
  | some j => j.PrevStates

/-- Key a batch operation writes. -/
def BatchOp.key : BatchOp → List Byte
  | BatchOp.Put k _ => k
  | BatchOp.Delete k => k

/-- Whether the commit pass treats a `dirtyState` entry as changed (line 233). -/
def Account.slotChanged (o : Account) (e : GoString × GoBytes) : Bool :=
  !bytes.Equal (o.originState.index e.1) e.2

/-- Batch operation the commit pass adds for a changed `dirtyState` entry
(lines 240-244). -/
def Account.slotOp (o : Account) (e : GoString × GoBytes) : BatchOp :=
  if e.2.isSome then BatchOp.Put (o.Addr.Bytes ++ (hex.DecodeString e.1).getD []) e.2
  else BatchOp.Delete (o.Addr.Bytes ++ (hex.DecodeString e.1).getD [])

/-! ## Store reads issued by the read paths -/

/-- Source `Account.GetState`, paired with the keys it passes to `ldb.Get`, in the order
of the calls (also when the call panics). -/
def Account.GetStateTraced (o : Account) (key : List Byte) :
    Option (Account × Bool × GoBytes) × List (List Byte) :=
  let hexKey := hex.EncodeToString key
  match o.dirtyState.get hexKey with
  | some val => (some (o, val.isSome, val), [])
  | none =>
    match o.originState.get hexKey with
    | some val => (some (o, val.isSome, val), [])
    | none =>
      match o.ldb.Get (o.Addr.Bytes ++ key) with
      | GetResult.fault => (none, [o.Addr.Bytes ++ key])
      | GetResult.notFound =>
        (some ({ o with originState := o.originState.set hexKey none }, false, none),
          [o.Addr.Bytes ++ key])
      | GetResult.ok val =>
        (some ({ o with originState := o.originState.set hexKey val }, val.isSome, val),
          [o.Addr.Bytes ++ key])

/-- Source `Account.Code`, paired with the keys it passes to `ldb.Get`, in the order of
the calls (also when the call panics). -/
def Account.CodeTraced (o : Account) : Option (Account × GoBytes) × List (List Byte) :=
  if o.dirtyCode.isSome then (some (o, o.dirtyCode), [])
  else if o.originCode.isSome then (some (o, o.originCode), [])
  else if bytes.Equal o.CodeHash none then (some (o, none), [])
  else
    match o.ldb.Get (compositeKey codeKey o.Addr.Hex) with
    | GetResult.fault => (none, [compositeKey codeKey o.Addr.Hex])
    | GetResult.notFound =>
      (some ({ o with originCode := none, dirtyCode := none }, none),
        [compositeKey codeKey o.Addr.Hex])
    | GetResult.ok code =>
      (some ({ o with originCode := code, dirtyCode := code }, code),
        [compositeKey codeKey o.Addr.Hex])

/-! ## `encoding/json` on an `innerAccount`

`json.Marshal` writes the record as the object with the members `nonce`, `balance` and
`code_hash`, in this order and without blanks: the two numbers in decimal, the code hash
as `null` when it is nil and as a quoted standard base64 string (with padding) when it is
not.  `json.Unmarshal` is embedded on the texts of this layout only: `none` stands for an
error and also for a text outside the layout. -/

/-- Go `strconv.FormatUint(n, 10)`, most significant digit first; `fuel` bounds the
number of digits. -/
def formatUintCore : Nat → Nat → List Byte → List Byte
  | 0, _, acc => acc
  | fuel + 1, n, acc =>
    if n / 10 = 0 then Fin.ofNat (48 + n % 10) :: acc
    else formatUintCore fuel (n / 10) (Fin.ofNat (48 + n % 10) :: acc)

/-- Go `strconv.FormatUint(n, 10)`. -/
def formatUint (n : Nat) : List Byte := formatUintCore (n + 1) n []

/-- Whether a byte is an ASCII digit. -/
def isDigit (c : Byte) : Bool := decide (48 ≤ c.val) && decide (c.val ≤ 57)

/-- Value of a string of digits read after the value `init`. -/
def digitsValue (init : Nat) (l : List Byte) : Nat :=
  l.foldl (fun a d => a * 10 + (d.val - 48)) init

/-- A JSON number read into a `uint64`: a non-empty string of digits without a leading
zero (except "0" itself) whose value is below 2^64; `none` otherwise. -/
def parseUint (l : List Byte) : Option Nat :=
  match l with
  | [] => none
  | c :: rest =>
    if (c :: rest).all isDigit && (decide (c.val ≠ 48) || rest.isEmpty) &&
        decide (digitsValue 0 (c :: rest) < 2 ^ 64) then
      some (digitsValue 0 (c :: rest))
    else none

/-- The standard base64 alphabet: the character of a 6-bit value. -/
def base64Char (n : Nat) : Byte :=
  if n < 26 then Fin.ofNat (65 + n)
  else if n < 52 then Fin.ofNat (97 + (n - 26))
  else if n < 62 then Fin.ofNat (48 + (n - 52))
  else if n = 62 then 43
  else 47

/-- The 6-bit value of a character of the standard base64 alphabet. -/
def base64Value (c : Byte) : Option Nat :=
  if 65 ≤ c.val ∧ c.val ≤ 90 then some (c.val - 65)
  else if 97 ≤ c.val ∧ c.val ≤ 122 then some (c.val - 97 + 26)
  else if 48 ≤ c.val ∧ c.val ≤ 57 then some (c.val - 48 + 52)
  else if c.val = 43 then some 62
  else if c.val = 47 then some 63
  else none

/-- Go `base64.StdEncoding.EncodeToString`. -/
def base64Encode : List Byte → List Byte
  | [] => []
  | [a] => [base64Char (a.val / 4), base64Char (a.val % 4 * 16), 61, 61]
  | [a, b] =>
    [base64Char (a.val / 4), base64Char (a.val % 4 * 16 + b.val / 16),
      base64Char (b.val % 16 * 4), 61]
  | a :: b :: c :: rest =>
    base64Char (a.val / 4) :: base64Char (a.val % 4 * 16 + b.val / 16) ::
      base64Char (b.val % 16 * 4 + c.val / 64) :: base64Char (c.val % 64) ::
      base64Encode rest

/-- Go `base64.StdEncoding.DecodeString` on a padded text without line breaks; `none`
for any other text. -/
def base64Decode : List Byte → Option (List Byte)
  | [] => some []
  | c1 :: c2 :: c3 :: c4 :: rest =>
    if rest = [] ∧ c3 = 61 ∧ c4 = 61 then
      match base64Value c1, base64Value c2 with
      | some v1, some v2 => some [Fin.ofNat (v1 * 4 + v2 / 16)]
      | _, _ => none
    else if rest = [] ∧ c4 = 61 then
      match base64Value c1, base64Value c2, base64Value c3 with
      | some v1, some v2, some v3 =>
        some [Fin.ofNat (v1 * 4 + v2 / 16), Fin.ofNat (v2 % 16 * 16 + v3 / 4)]
      | _, _, _ => none
    else
      match base64Value c1, base64Value c2, base64Value c3, base64Value c4,
        base64Decode rest with
      | some v1, some v2, some v3, some v4, some r =>
        some (Fin.ofNat (v1 * 4 + v2 / 16) :: Fin.ofNat (v2 % 16 * 16 + v3 / 4) ::
          Fin.ofNat (v3 % 4 * 64 + v4) :: r)
      | _, _, _, _, _ => none
  | _ => none

/-- The text that opens the object up to the value of `nonce`. -/
def textNonce : List Byte := [123, 34, 110, 111, 110, 99, 101, 34, 58]

/-- The text between the value of `nonce` and the value of `balance`. -/
def textBalance : List Byte := [44, 34, 98, 97, 108, 97, 110, 99, 101, 34, 58]

/-- The text between the value of `balance` and the value of `code_hash`. -/
def textCodeHash : List Byte := [44, 34, 99, 111, 100, 101, 95, 104, 97, 115, 104, 34, 58]

/-- The text `null`. -/
def textNull : List Byte := [110, 117, 108, 108]

/-- Go `json.Marshal` on an `innerAccount`; it returns no error on this type. -/
def json.Marshal (a : innerAccount) : Option (List Byte) :=
  some (textNonce ++ formatUint a.Nonce ++ textBalance ++ formatUint a.Balance ++
    textCodeHash ++
    (match a.CodeHash with
      | none => textNull
      | some h => [34] ++ base64Encode h ++ [34]) ++ [125])

/-- The rest of a text after the text `p`, `none` when it does not start with `p`. -/
def dropText (p s : List Byte) : Option (List Byte) :=
  if p.isPrefixOf s then some (s.drop p.length) else none

/-- Go `json.Unmarshal` into an `innerAccount`, on the layout `json.Marshal` writes. -/
def json.Unmarshal (data : List Byte) (_o : innerAccount) : Option innerAccount :=
  match dropText textNonce data with
  | none => none
  | some s1 =>
    match parseUint (s1.takeWhile isDigit), dropText textBalance (s1.dropWhile isDigit) with
    | some nonce, some s2 =>
      match parseUint (s2.takeWhile isDigit),
        dropText textCodeHash (s2.dropWhile isDigit) with
      | some balance, some s3 =>
        if s3 = textNull ++ [125] then
          some { Nonce := nonce, Balance := balance, CodeHash := none }
        else
          match dropText [34] s3 with
          | none => none
          | some s4 =>
            if s4.dropWhile (fun c => c != 34) = [34, 125] then
              match base64Decode (s4.takeWhile (fun c => c != 34)) with
              | some h => some { Nonce := nonce, Balance := balance, CodeHash := some h }
              | none => none
            else none
      | _, _ => none
    | _, _ => none

/-- Source `innerAccount.Unmarshal`: the record after the call, `none` on an error. -/
def innerAccount.Unmarshal (o : innerAccount) (data : List Byte) : Option innerAccount :=
  json.Unmarshal data o

/-! ## Properties of account states -/

/-- Every key of `dirtyState` is a key of `originState`. -/
def Account.dirtyKeysCached (o : Account) : Prop :=
  ∀ k, k ∈ o.dirtyState.keys → k ∈ o.originState.keys

/-- Entry a new journal starts from (line 179). -/
def Account.newEntry (o : Account) : journal :=
  { Address := o.Addr, AccountChanged := false, PrevAccount := none,
    CodeChanged := false, PrevCode := none, PrevStates := GoMap.empty }

/-- Pre-image map after the first loop of `getStateJournalAndComputeHash` has visited
the changed entries `l`, starting from `prev`. -/
def Account.prevStatesFrom (o : Account) (l : List (GoString × GoBytes)) (prev : GoMap) : GoMap :=
  l.foldl (fun p e => p.set e.1 (o.originState.index e.1)) prev

/-- Whether a string is the hex form that `hex.EncodeToString` gives to some bytes. -/
def isEncoded (k : GoString) : Bool :=
  (hex.DecodeString k).map hex.EncodeToString == some k

/-- Every key of `dirtyState` is the hex form of a slot key, as `SetState` writes it. -/
def Account.dirtyKeysEncoded (o : Account) : Prop :=
  ∀ k, k ∈ o.dirtyState.keys → isEncoded k = true

/-- Go `a <= b` on strings. -/
def strLE (a b : GoString) : Prop := bytesLess b a = false

/-- What a successful store read caches for a slot: the value read, or nil on
`ErrNotFound`. -/
def Storage.cached (ldb : Storage) (k : List Byte) (v : GoBytes) : Prop :=
  ldb.Get k = GetResult.ok v ∨ (ldb.Get k = GetResult.notFound ∧ v = none)

/-- Every entry of `originState` is what the store returned for its slot. -/
def Account.originFromStore (o : Account) : Prop :=
  ∀ k v, o.originState.get k = some v →
    ∃ key, k = hex.EncodeToString key ∧ o.ldb.cached (o.Addr.Bytes ++ key) v

/-- The hash input the spec describes for a list of slot keys in hex form: each key
followed by its dirty value, `k1 ∥ v1 ∥ k2 ∥ v2 ∥ ...`. -/
def Account.hashInput (o : Account) : List GoString → List Byte
  | [] => []
  | k :: rest => k ++ (o.dirtyState.index k).data ++ o.hashInput rest

/-- The origin code and the dirty code agree, and when they are absent the store holds no
code under the code key (`Get` returns `ErrNotFound` or a nil value): the state that a
read-through of `Code()` leaves. -/
def Account.codeSynced (o : Account) : Prop :=
  o.originCode = o.dirtyCode ∧
  (o.originCode = none →
    o.ldb.Get (compositeKey codeKey o.Addr.Hex) = GetResult.notFound ∨
      o.ldb.Get (compositeKey codeKey o.Addr.Hex) = GetResult.ok none)

/-- Whether a call is a `SetCodeAndHash`. -/
def Call.isSetCodeAndHash : Call → Bool
  | Call.SetCodeAndHash _ => true
  | _ => false

/-! ## Concrete inputs -/

/-- The address `0x00…01`. -/
def addr1 : Address := ⟨List.replicate 19 0 ++ [1], by decide⟩

/-- Stand-ins for the library functions, to evaluate the code on concrete inputs: the
digest of an input is its first 32 bytes, padded with zeros, and a record is encoded as
its nonce, its balance and its code hash. -/
def exampleEnv : Env :=
  { sha256 := fun d => (d ++ List.replicate 32 0).take 32
    sha256_len := fun d => by simp
    jsonMarshal := fun a => some (Fin.ofNat a.Nonce :: Fin.ofNat a.Balance :: a.CodeHash.data) }

/-- Slot key of `addr1` for the slot `[0x10]`. -/
def slot10 : List Byte := addr1.Bytes ++ [0x10]

/-- Code key of `addr1`. -/
def codeKey1 : List Byte := compositeKey codeKey addr1.Hex

/-- A store holding `[0xAA]` in slot `[0x10]` of `addr1`. -/
def storeSlot : KV := [(slot10, [0xAA])]

/-- A store holding the code `[0x60, 0x60]` of `addr1`. -/
def storeCode : KV := [(codeKey1, [0x60, 0x60])]

/-- A run of calls: a slot write, a slot read, metadata and code writes, a code read and
a commit into a fresh batch. -/
def exampleCalls : List Call :=
  [Call.SetState [0x10] (some [0xBB]), Call.GetState [0x11], Call.SetBalance 100,
    Call.SetCodeAndHash (some [0x60, 0x60]), Call.Code,
    Call.getJournalIfModified [(hex.EncodeToString [0x10], some [0xBB])] []]

/-- The account of `addr1` over `storeSlot` after `SetState([0x10], [0xBB])`. -/
def accountSlot : Account :=
  { newAccount storeSlot.toStorage addr1 with
    originState := GoMap.empty.set (hex.EncodeToString [0x10]) (some [0xAA])
    dirtyState := GoMap.empty.set (hex.EncodeToString [0x10]) (some [0xBB]) }

/-- A store holding nothing. -/
def storeEmpty : KV := []

/-- The entries for the slots `[0x02]` and `[0x01]`, in this order. -/
def orderDescending : List (GoString × GoBytes) :=
  [(hex.EncodeToString [0x02], some [0x02]), (hex.EncodeToString [0x01], some [0x01])]

/-- The account of `addr1` as loaded from `storeCode`: its record advertises the digest
of the code the store holds; nothing has been called on it yet. -/
def accountWithCode : Account :=
  { newAccount storeCode.toStorage addr1 with
    originAccount :=
      some { Nonce := 1, Balance := 5, CodeHash := some (exampleEnv.sha256 [0x60, 0x60]) } }

/-- The stand-in library functions with the record encoding of `encoding/json`. -/
def jsonEnv : Env := { exampleEnv with jsonMarshal := json.Marshal }

/-- A fresh account of `addr1` over the empty store after `SetNonce(7)`. -/
def accountNonce : Account := (newAccount storeEmpty.toStorage addr1).SetNonce 7

/-- An address whose 20 raw bytes are the ASCII text "c-632d36333264333633": the text
"c-" followed by the first eighteen hex digits of the address itself. -/
def addrCodeText : Address :=
  ⟨[0x63, 0x2d, 0x36, 0x33, 0x32, 0x64, 0x33, 0x36, 0x33, 0x33, 0x33, 0x32, 0x36, 0x34, 0x33,
    0x33, 0x33, 0x36, 0x33, 0x33], by decide⟩

/-- The slot key made of the ASCII text "3333323634333333363333", the last twenty-two hex
digits of `addrCodeText`. -/
def slotCodeText : List Byte :=
  [0x33, 0x33, 0x33, 0x33, 0x33, 0x32, 0x33, 0x36, 0x33, 0x34, 0x33, 0x33, 0x33, 0x33, 0x33,
    0x33, 0x33, 0x36, 0x33, 0x33, 0x33, 0x33]

/-- A store holding the code `[0x60, 0x60]` of `addrCodeText`. -/
def storeCodeText : KV := [(compositeKey codeKey addrCodeText.Hex, [0x60, 0x60])]

/-- The account of `addrCodeText` as loaded from `storeCodeText`: its record advertises
the digest of the code the store holds; nothing has been called on it yet. -/
def accountCodeText : Account :=
  { newAccount storeCodeText.toStorage addrCodeText with
    originAccount :=
      some { Nonce := 1, Balance := 5, CodeHash := some (exampleEnv.sha256 [0x60, 0x60]) } }

/-- An address whose 20 raw bytes are the ASCII text "a-" followed by eighteen "0". -/
def addrMarker : Address := ⟨[0x61, 0x2d] ++ List.replicate 18 0x30, by decide⟩

/-- The slot key made of the ASCII text of twenty-one "0" and one "1". -/
def slotText : List Byte := List.replicate 21 0x30 ++ [0x31]

end Ledger

/-! # Raft configuration of the ordering service (`pkg/order/etcdraft/config.go`)

Go `int` fields are integers and `uint64` fields natural numbers (the code only compares
them with 0 and copies them).  Reading `order.toml` is outside the embedding: its outcome
is an argument, `none` when `readConfig` returns an error. -/

namespace Etcdraft

/-- Record `TxPoolConfig`; `BlockTick` is a `time.Duration`, in nanoseconds. -/
structure TxPoolConfig where
  PackSize : Int
  BlockTick : Int
  PoolSize : Int

/-- Record `RAFT`. -/
structure RAFT where
  ElectionTick : Int
  HeartbeatTick : Int
  MaxSizePerMsg : Nat
  MaxInflightMsgs : Int
  CheckQuorum : Bool
  PreVote : Bool
  DisableProposalForwarding : Bool
  TxPoolConfig : TxPoolConfig

/-- Record `RAFTConfig`. -/
structure RAFTConfig where
  RAFT : RAFT

/-- The fields of etcd's `raft.Config` that this file sets; `S` and `L` are the types of
the storage and of the logger, `none` being a nil interface.  Every other field keeps its
zero value. -/
structure Config (S L : Type) where
  ID : Nat
  ElectionTick : Int
  HeartbeatTick : Int
  Storage : Option S
  MaxSizePerMsg : Nat
  MaxInflightMsgs : Int
  CheckQuorum : Bool
  PreVote : Bool
  DisableProposalForwarding : Bool
  Logger : Option L

/-- The zero value `raft.Config{}`. -/
def Config.zero (S L : Type) : Config S L :=
  { ID := 0, ElectionTick := 0, HeartbeatTick := 0, Storage := none, MaxSizePerMsg := 0,
    MaxInflightMsgs := 0, CheckQuorum := false, PreVote := false,
    DisableProposalForwarding := false, Logger := none }

/-- Source `defaultRaftConfig`. -/
def defaultRaftConfig (S L : Type) : Config S L :=
  { Config.zero S L with
    ElectionTick := 10
    HeartbeatTick := 1
    MaxSizePerMsg := 1024 * 1024
    MaxInflightMsgs := 500
    PreVote := true
    CheckQuorum := true
    DisableProposalForwarding := true }

/-- Source `generateRaftConfig`; `readConfig` is the outcome of `readConfig(repoRoot)`.
The error the source returns is nil on every path. -/
def generateRaftConfig {S L : Type} (id : Nat) (readConfig : Option RAFTConfig)
    (logger : L) (ram : S) : Config S L :=
  match readConfig with
  | none => Config.zero S L
  | some readConfig =>
    let defaultConfig := defaultRaftConfig S L
    let defaultConfig := { defaultConfig with ID := id }
    let defaultConfig := { defaultConfig with Storage := some ram }
    let defaultConfig := { defaultConfig with Logger := some logger }
    let defaultConfig :=
      if readConfig.RAFT.ElectionTick > 0 then
        { defaultConfig with ElectionTick := readConfig.RAFT.ElectionTick }
      else defaultConfig
    let defaultConfig :=
      if readConfig.RAFT.HeartbeatTick > 0 then
        { defaultConfig with HeartbeatTick := readConfig.RAFT.HeartbeatTick }
      else defaultConfig
    let defaultConfig :=
      if readConfig.RAFT.MaxSizePerMsg > 0 then
        { defaultConfig with MaxSizePerMsg := readConfig.RAFT.MaxSizePerMsg }
      else defaultConfig
    let defaultConfig :=
      if readConfig.RAFT.MaxInflightMsgs > 0 then
        { defaultConfig with MaxInflightMsgs := readConfig.RAFT.MaxInflightMsgs }
      else defaultConfig
    let defaultConfig := { defaultConfig with PreVote := readConfig.RAFT.PreVote }
    let defaultConfig := { defaultConfig with CheckQuorum := readConfig.RAFT.CheckQuorum }
    { defaultConfig with
      DisableProposalForwarding := readConfig.RAFT.DisableProposalForwarding }

end Etcdraft

namespace Ledger

/-! # Theorems -/

theorem bytesPrefix_loop_cons (a : Byte) (p : List Byte) (n : Nat) :
    bytesPrefix.loop (a :: p) (n + 1) =
      match bytesPrefix.loop p n with
      | some l => some (a :: l)
      | none => if a < 0xff then some [a + 1] else none := by
  induction n with
  | zero => simp [bytesPrefix.loop]
  | succ n ih =>
    rw [bytesPrefix.loop]
    by_cases h : p.getD n 0 < 0xff
    · have h2 : (a :: p).getD (n + 1) 0 < 0xff := by simpa using h
      simp only [h2, if_true]
      rw [bytesPrefix.loop]
      simp only [h, if_true]
      simp
    · have h2 : ¬ (a :: p).getD (n + 1) 0 < 0xff := by simpa using h
      simp only [h2, if_false]
      rw [ih]
      conv_rhs => rw [bytesPrefix.loop]
      simp only [h, if_false]

theorem bytesPrefix_loop_eq (p : List Byte) : bytesPrefix.loop p p.length = limitOf p := by
  induction p with
  | nil => rfl
  | cons a p ih => rw [List.length_cons, bytesPrefix_loop_cons, ih, limitOf]

theorem bytesLess_nil_right (x : List Byte) : bytesLess x [] = false := by
  cases x <;> rfl

theorem limitOf_bounds (p x : List Byte) :
    p <+: x ↔ (bytesLess x p = false ∧
      match limitOf p with
      | none => True
      | some l => bytesLess x l = true) := by
  induction p generalizing x with
  | nil => simp [limitOf, bytesLess_nil_right]
  | cons a p ih =>
    cases x with
    | nil => simp [bytesLess]
    | cons b x =>
      rw [List.cons_prefix_cons, ih x, limitOf]
      cases hl : limitOf p with
      | some l =>
        simp only [bytesLess, Bool.or_eq_false_iff, Bool.and_eq_false_iff, Bool.or_eq_true,
          Bool.and_eq_true, decide_eq_true_eq, decide_eq_false_iff_not]
        constructor
        · rintro ⟨rfl, h1, h2⟩
          exact ⟨⟨lt_irrefl _, Or.inr h1⟩, Or.inr ⟨rfl, h2⟩⟩
        · rintro ⟨⟨h1, h2⟩, h3⟩
          rcases h3 with h3 | ⟨h3, h4⟩
          · exact absurd h3 h1
          · subst h3
            rcases h2 with h2 | h2
            · exact absurd rfl h2
            · exact ⟨rfl, h2, h4⟩
      | none =>
        by_cases ha : a < 0xff
        · simp only [ha, if_true, bytesLess, bytesLess_nil_right, Bool.or_eq_false_iff,
            Bool.and_eq_false_iff, Bool.or_eq_true, Bool.and_eq_true, decide_eq_true_eq,
            decide_eq_false_iff_not, Bool.and_false, Bool.or_false, and_true]
          have hsucc : ∀ c : Byte, c < a + 1 ↔ c ≤ a := by
            intro c
            have h255 : a.val < 255 := ha
            have : (a + 1).val = a.val + 1 := by
              rw [Fin.val_add]; simp; omega
            rw [Fin.lt_def, Fin.le_def, this]; omega
          constructor
          · rintro ⟨rfl, h1⟩
            exact ⟨⟨lt_irrefl _, Or.inr h1⟩, (hsucc _).2 le_rfl⟩
          · rintro ⟨⟨h1, h2⟩, h3⟩
            have h4 : b ≤ a := (hsucc _).1 h3
            have h5 : a = b := le_antisymm (not_lt.1 h1) h4
            subst h5
            rcases h2 with h2 | h2
            · exact absurd rfl h2
            · exact ⟨rfl, h2⟩
        · simp only [ha, if_false, bytesLess, Bool.or_eq_false_iff,
            Bool.and_eq_false_iff, decide_eq_false_iff_not, and_true]
          have ha2 : a = 0xff := by
            have h7 : ¬ a.val < 255 := ha
            have h8 := a.isLt
            apply Fin.ext
            show a.val = 255
            omega
          constructor
          · rintro ⟨rfl, h1⟩
            exact ⟨lt_irrefl _, Or.inr h1⟩
          · rintro ⟨h1, h2⟩
            have h5 : a = b := by
              subst ha2
              apply Fin.ext
              have h8 := b.isLt
              have h6 : ¬ b.val < 255 := h1
              show 255 = b.val
              omega
            subst h5
            rcases h2 with h2 | h2
            · exact absurd rfl h2
            · exact ⟨rfl, h2⟩

/-- C1: `bytesPrefix P` returns `P` itself and a limit `L` such that a byte string `X`
starts with `P` exactly when `P ≤ X` in lexicographic byte order and `X < L`, a nil `L`
standing for an unbounded upper end. -/
theorem bytesPrefix_range (P : GoBytes) (X : List Byte) :
    (bytesPrefix P).1 = P ∧
    (P.data <+: X ↔
      (bytesLess X P.data = false ∧
        match (bytesPrefix P).2 with
        | none => True
        | some L => bytesLess X L = true)) := by
  refine ⟨rfl, ?_⟩
  simp only [bytesPrefix, bytesPrefix_loop_eq]
  exact limitOf_bounds P.data X

/-! ## Maps -/

theorem lookup_filter_ne {β : Type} (k k' : GoString) (h : k' ≠ k) (l : List (GoString × β)) :
    (l.filter (fun e => e.1 != k)).lookup k' = l.lookup k' := by
  induction l with
  | nil => rfl
  | cons e l ih =>
    obtain ⟨a, b⟩ := e
    by_cases ha : a = k
    · subst ha
      have h1 : (k' == a) = false := by simpa using h
      simp [List.filter_cons, List.lookup_cons, h1, ih]
    · have h2 : (a != k) = true := by simpa using ha
      simp only [List.filter_cons, h2, if_true, List.lookup_cons, ih]

theorem GoMap.get_set (m : GoMap) (k : GoString) (v : GoBytes) (k' : GoString) :
    (m.set k v).get k' = if k' = k then some v else m.get k' := by
  unfold GoMap.get GoMap.set
  by_cases h : k' = k
  · subst h; simp [List.lookup_cons]
  · have h1 : (k' == k) = false := by simpa using h
    simp only [List.lookup_cons, h1, h, if_false]
    exact lookup_filter_ne k k' h _

theorem GoMap.get_set_self (m : GoMap) (k : GoString) (v : GoBytes) :
    (m.set k v).get k = some v := by
  rw [GoMap.get_set]; simp

theorem lookup_eq_some_of_mem {β : Type} (l : List (GoString × β))
    (hnd : (l.map Prod.fst).Nodup) (k : GoString) (v : β) :
    (k, v) ∈ l ↔ l.lookup k = some v := by
  induction l with
  | nil => simp
  | cons e l ih =>
    obtain ⟨a, b⟩ := e
    rw [List.map_cons, List.nodup_cons] at hnd
    by_cases ha : k = a
    · subst ha
      have hnot : ∀ w, (k, w) ∉ l := fun w hw => hnd.1 (List.mem_map.2 ⟨(k, w), hw, rfl⟩)
      simp [List.lookup_cons, hnot]
      exact eq_comm
    · have h1 : (k == a) = false := by simpa using ha
      simp [List.lookup_cons, h1, ha, ih hnd.2]

theorem GoMap.mem_entries_iff (m : GoMap) (k : GoString) (v : GoBytes) :
    (k, v) ∈ m.entries ↔ m.get k = some v :=
  lookup_eq_some_of_mem m.entries m.nodup k v

theorem GoMap.mem_keys_iff (m : GoMap) (k : GoString) :
    k ∈ m.keys ↔ ∃ v, m.get k = some v := by
  unfold GoMap.keys
  constructor
  · intro h
    obtain ⟨e, he, rfl⟩ := List.mem_map.1 h
    exact ⟨e.2, (m.mem_entries_iff e.1 e.2).1 he⟩
  · rintro ⟨v, hv⟩
    exact List.mem_map.2 ⟨(k, v), (m.mem_entries_iff k v).2 hv, rfl⟩

theorem GoMap.get_empty (k : GoString) : GoMap.empty.get k = none := rfl

theorem GoMap.entries_perm_of_get_eq (m1 m2 : GoMap) (h : ∀ k, m1.get k = m2.get k) :
    m1.entries.Perm m2.entries := by
  rw [List.perm_ext_iff_of_nodup (List.Nodup.of_map _ m1.nodup) (List.Nodup.of_map _ m2.nodup)]
  rintro ⟨k, v⟩
  rw [GoMap.mem_entries_iff, GoMap.mem_entries_iff, h]

/-! ## Hex strings -/

theorem fromHexChar_hextable (n : Fin 16) : fromHexChar (hextable.getD n.val 0) = some n.val := by
  revert n; decide

theorem hex_byte (v : Byte) :
    fromHexChar (hextable.getD (v.val / 16) 0) = some (v.val / 16) ∧
    fromHexChar (hextable.getD (v.val % 16) 0) = some (v.val % 16) ∧
    (Fin.ofNat (v.val / 16 * 16 + v.val % 16) : Byte) = v := by
  have h := v.isLt
  refine ⟨?_, ?_, ?_⟩
  · exact fromHexChar_hextable ⟨v.val / 16, by omega⟩
  · exact fromHexChar_hextable ⟨v.val % 16, by omega⟩
  · apply Fin.ext
    show (v.val / 16 * 16 + v.val % 16) % 256 = v.val
    omega

theorem hex_decode_encode (key : List Byte) :
    hex.DecodeString (hex.EncodeToString key) = some key := by
  induction key with
  | nil => rfl
  | cons v rest ih =>
    obtain ⟨h1, h2, h3⟩ := hex_byte v
    simp only [hex.EncodeToString, hex.DecodeString, h1, h2, ih, h3]

theorem isEncoded_iff (k : GoString) :
    isEncoded k = true ↔ ∃ key, k = hex.EncodeToString key := by
  unfold isEncoded
  constructor
  · intro h
    cases hd : hex.DecodeString k with
    | none => rw [hd] at h; simp at h
    | some key =>
      rw [hd] at h
      have h' : hex.EncodeToString key = k := by simpa using h
      exact ⟨key, h'.symm⟩
  · rintro ⟨key, rfl⟩
    rw [hex_decode_encode]
    simp

theorem hex_encode_injective (a b : List Byte)
    (h : hex.EncodeToString a = hex.EncodeToString b) : a = b := by
  have h1 := hex_decode_encode a
  rw [h, hex_decode_encode] at h1
  exact (Option.some.inj h1).symm

/-! ## Reads and writes of one slot -/

/-- Outcome of a store read as a cached value: `none` when the read fails. -/
theorem GetState_cases (o o1 : Account) (key : List Byte) (b : Bool) (v : GoBytes)
    (h : o.GetState key = some (o1, b, v)) :
    b = v.isSome ∧ o1 = { o with originState := o1.originState } ∧
    ((o1.originState = o.originState ∧
        (o.dirtyState.get (hex.EncodeToString key) = some v ∨
          (o.dirtyState.get (hex.EncodeToString key) = none ∧
            o.originState.get (hex.EncodeToString key) = some v))) ∨
      (o.dirtyState.get (hex.EncodeToString key) = none ∧
        o.originState.get (hex.EncodeToString key) = none ∧
        o1.originState = o.originState.set (hex.EncodeToString key) v ∧
        (o.ldb.Get (o.Addr.Bytes ++ key) = GetResult.ok v ∨
          (o.ldb.Get (o.Addr.Bytes ++ key) = GetResult.notFound ∧ v = none)))) := by
  unfold Account.GetState at h
  simp only at h
  cases hd : o.dirtyState.get (hex.EncodeToString key) with
  | some val =>
    rw [hd] at h
    simp only [Option.some.injEq, Prod.mk.injEq] at h
    obtain ⟨rfl, rfl, rfl⟩ := h
    exact ⟨rfl, rfl, Or.inl ⟨rfl, Or.inl rfl⟩⟩
  | none =>
    rw [hd] at h
    simp only at h
    cases ho : o.originState.get (hex.EncodeToString key) with
    | some val =>
      rw [ho] at h
      simp only [Option.some.injEq, Prod.mk.injEq] at h
      obtain ⟨rfl, rfl, rfl⟩ := h
      exact ⟨rfl, rfl, Or.inl ⟨rfl, Or.inr ⟨rfl, rfl⟩⟩⟩
    | none =>
      rw [ho] at h
      simp only at h
      cases hg : o.ldb.Get (o.Addr.Bytes ++ key) with
      | fault => rw [hg] at h; simp at h
      | notFound =>
        rw [hg] at h
        simp only [Option.some.injEq, Prod.mk.injEq] at h
        obtain ⟨rfl, rfl, rfl⟩ := h
        exact ⟨rfl, rfl, Or.inr ⟨rfl, rfl, rfl, Or.inr ⟨rfl, rfl⟩⟩⟩
      | ok val =>
        rw [hg] at h
        simp only [Option.some.injEq, Prod.mk.injEq] at h
        obtain ⟨rfl, rfl, rfl⟩ := h
        exact ⟨rfl, rfl, Or.inr ⟨rfl, rfl, rfl, Or.inl rfl⟩⟩

theorem SetState_cases (o o2 : Account) (key : List Byte) (value : GoBytes)
    (h : o.SetState key value = some o2) :
    ∃ o1 b v, o.GetState key = some (o1, b, v) ∧
      o2 = { o1 with dirtyState := o1.dirtyState.set (hex.EncodeToString key) value } := by
  unfold Account.SetState at h
  cases hg : o.GetState key with
  | none => rw [hg] at h; simp at h
  | some r =>
    obtain ⟨o1, b, v⟩ := r
    rw [hg] at h
    simp only [Option.some.injEq] at h
    exact ⟨o1, b, v, rfl, h.symm⟩

/-- C5 (as amended): after `SetState(k, v)` returns, `GetState(k)` returns `(found, v)`
and leaves the account as it is, where `found` is true exactly when `v` is not the nil
slice: `(false, nil)` for a nil `v` and `(true, v)` for every non-nil `v`, the empty
non-nil slice included. -/
theorem GetState_after_SetState (o o1 : Account) (k : List Byte) (v : GoBytes)
    (h : o.SetState k v = some o1) :
    o1.GetState k = some (o1, v.isSome, v) := by
  obtain ⟨o', b, w, _, rfl⟩ := SetState_cases o o1 k v h
  unfold Account.GetState
  simp only [GoMap.get_set_self]

/-- Witness of C5 (as amended). -/
theorem GetState_after_SetState_witness :
    ∃ o1, (newAccount storeSlot.toStorage addr1).SetState [0x10] (some [0xBB]) = some o1 ∧
      (o1.GetState [0x10]).map (fun r => r.2) = some (true, some [0xBB]) := by
  have hs : ((newAccount storeSlot.toStorage addr1).SetState [0x10] (some [0xBB])).isSome = true := by
    decide
  obtain ⟨o1, h⟩ := Option.isSome_iff_exists.1 hs
  exact ⟨o1, h, by rw [GetState_after_SetState _ o1 [0x10] (some [0xBB]) h]; rfl⟩

/-- C5, counterexample: on a fresh account `SetState([0x10], []byte{})` followed by
`GetState([0x10])` returns `(true, []byte{})`: found is true although the value is empty. -/
theorem GetState_empty_found :
    (((newAccount storeSlot.toStorage addr1).SetState [0x10] (some [])).bind
        (fun o => (o.GetState [0x10]).map (fun r => r.2))) = some (true, some []) ∧
      GoBytes.data (some []) = [] := by
  decide

/-- C6 (as amended): after `SetCodeAndHash(c)` with a non-nil `c` (of any length, zero
included) `CodeHash()` is the SHA-256 digest of `c` and `Code()` returns `c` without
changing the account; after `SetCodeAndHash(nil)` `CodeHash()` is the digest of the
empty string. -/
theorem Code_after_SetCodeAndHash (E : Env) (o : Account) (c : List Byte) :
    (o.SetCodeAndHash E (some c)).CodeHash = some (E.sha256 c) ∧
    (o.SetCodeAndHash E (some c)).Code = some (o.SetCodeAndHash E (some c), some c) ∧
    (o.SetCodeAndHash E none).CodeHash = some (E.sha256 []) := by
  refine ⟨?_, ?_, ?_⟩
  · simp [Account.SetCodeAndHash, Account.CodeHash, GoBytes.data]
  · simp [Account.SetCodeAndHash, Account.Code]
  · simp [Account.SetCodeAndHash, Account.CodeHash, GoBytes.data]

/-- C6, counterexample: the record of `accountWithCode` advertises a code hash, the store
holds its code `[0x60, 0x60]` and `Code()` has loaded it; after `SetCodeAndHash(nil)` the
call `Code()` still returns `[0x60, 0x60]`, not the nil code that was set. -/
theorem Code_after_SetCodeAndHash_nil :
    (accountWithCode.Code.bind
        (fun r => ((r.1.SetCodeAndHash exampleEnv none).Code).map (fun r1 => r1.2))) =
      some (some [0x60, 0x60]) := by
  decide

/-- C9: `innerAccountChanged(origin, dirty)` is false when `dirty` is absent; otherwise
it is true when `origin` is absent, false when nonce, balance and the bytes of the code
hash are all equal, and true in every other case. -/
theorem innerAccountChanged_cases (origin dirty : Option innerAccount) :
    (dirty = none → innerAccountChanged origin dirty = false) ∧
    (∀ d, dirty = some d →
      (origin = none → innerAccountChanged origin dirty = true) ∧
      (∀ a, origin = some a →
        ((a.Nonce = d.Nonce ∧ a.Balance = d.Balance ∧ a.CodeHash.data = d.CodeHash.data) →
          innerAccountChanged origin dirty = false) ∧
        (¬ (a.Nonce = d.Nonce ∧ a.Balance = d.Balance ∧ a.CodeHash.data = d.CodeHash.data) →
          innerAccountChanged origin dirty = true))) := by
  refine ⟨?_, ?_⟩
  · rintro rfl; rfl
  · rintro d rfl
    refine ⟨?_, ?_⟩
    · rintro rfl; rfl
    · rintro a rfl
      simp only [innerAccountChanged, bytes.Equal, decide_eq_true_eq]
      constructor
      · intro h; simp [h]
      · intro h; simp [h]

/-! ## What each call leaves unchanged -/

theorem Code_frame (o o1 : Account) (c : GoBytes) (h : o.Code = some (o1, c)) :
    o1 = { o with originCode := o1.originCode, dirtyCode := o1.dirtyCode } := by
  unfold Account.Code at h
  split at h
  · simp only [Option.some.injEq, Prod.mk.injEq] at h; rw [← h.1]
  · split at h
    · simp only [Option.some.injEq, Prod.mk.injEq] at h; rw [← h.1]
    · split at h
      · simp only [Option.some.injEq, Prod.mk.injEq] at h; rw [← h.1]
      · split at h
        · simp at h
        · simp only [Option.some.injEq, Prod.mk.injEq] at h; rw [← h.1]
        · simp only [Option.some.injEq, Prod.mk.injEq] at h; rw [← h.1]

theorem loadOriginCode_frame (o o1 : Account) (h : o.loadOriginCode = some o1) :
    o1 = { o with originCode := o1.originCode } := by
  unfold Account.loadOriginCode at h
  split at h
  · split at h
    · simp at h
    · simp only [Option.some.injEq] at h; rw [← h]
    · simp only [Option.some.injEq] at h; rw [← h]
  · simp only [Option.some.injEq] at h; rw [← h]

theorem getStateJournalAndComputeHash_frame (E : Env) (o o1 : Account)
    (order : List (GoString × GoBytes)) (b b1 : Batch) (prev : GoMap)
    (h : o.getStateJournalAndComputeHash E order b = some (o1, b1, prev)) :
    o1 = { o with dirtyStateHash := o1.dirtyStateHash } := by
  unfold Account.getStateJournalAndComputeHash at h
  split at h
  · simp at h
  · simp only [Option.some.injEq, Prod.mk.injEq] at h; rw [← h.1]

theorem getJournalIfModified_inv (E : Env) (o o2 : Account)
    (order : List (GoString × GoBytes)) (b b2 : Batch) (j : Option journal)
    (h : o.getJournalIfModified E order b = some (o2, b2, j)) :
    ∃ b1 e1 o1 prev, o.journalAccount E b o.newEntry = some (b1, e1) ∧
      o.loadOriginCode = some o1 ∧
      o1.getStateJournalAndComputeHash E order (o1.journalCode b1 e1).1 = some (o2, b2, prev) ∧
      j = journalStates (o1.journalCode b1 e1).2 prev := by
  unfold Account.getJournalIfModified at h
  simp only at h
  split at h
  · simp at h
  · rename_i b1 e1 ha
    split at h
    · simp at h
    · rename_i o1 hl
      split at h
      · simp at h
      · rename_i o3 b3 prev hs
        simp only [Option.some.injEq, Prod.mk.injEq] at h
        obtain ⟨rfl, rfl, rfl⟩ := h
        exact ⟨b1, e1, o1, prev, ha, hl, hs, rfl⟩

theorem getJournalIfModified_frame (E : Env) (o o2 : Account)
    (order : List (GoString × GoBytes)) (b b2 : Batch) (j : Option journal)
    (h : o.getJournalIfModified E order b = some (o2, b2, j)) :
    o2 = { o with originCode := o2.originCode, dirtyStateHash := o2.dirtyStateHash } := by
  obtain ⟨b1, e1, o1, prev, _, hl, hs, _⟩ := getJournalIfModified_inv E o o2 order b b2 j h
  have h1 := loadOriginCode_frame o o1 hl
  have h2 := getStateJournalAndComputeHash_frame E o1 o2 order _ b2 prev hs
  rw [h2, h1]

/-! ## Slot keys of the dirty map are cached in the origin map -/

theorem GoMap.mem_keys_set (m : GoMap) (k k' : GoString) (v : GoBytes) :
    k' ∈ (m.set k v).keys ↔ k' = k ∨ k' ∈ m.keys := by
  rw [GoMap.mem_keys_iff, GoMap.mem_keys_iff]
  simp only [GoMap.get_set]
  by_cases h : k' = k
  · simp [h]
  · simp [h]

theorem GetState_dirtyKeysCached (o o1 : Account) (key : List Byte) (b : Bool) (v : GoBytes)
    (h : o.GetState key = some (o1, b, v)) (hinv : o.dirtyKeysCached) :
    o1.dirtyKeysCached ∧ hex.EncodeToString key ∈ o1.originState.keys := by
  obtain ⟨_, h1, h2⟩ := GetState_cases o o1 key b v h
  have hd : o1.dirtyState = o.dirtyState := by rw [h1]
  rcases h2 with ⟨h3, h4⟩ | ⟨_, _, h3, _⟩
  · refine ⟨?_, ?_⟩
    · intro k hk; rw [h3]; rw [hd] at hk; exact hinv k hk
    · rw [h3]
      rcases h4 with h4 | ⟨_, h4⟩
      · exact hinv _ ((GoMap.mem_keys_iff _ _).2 ⟨v, h4⟩)
      · exact (GoMap.mem_keys_iff _ _).2 ⟨v, h4⟩
  · refine ⟨?_, ?_⟩
    · intro k hk; rw [h3, GoMap.mem_keys_set]; rw [hd] at hk; exact Or.inr (hinv k hk)
    · rw [h3, GoMap.mem_keys_set]; exact Or.inl rfl

theorem call_dirtyKeysCached (E : Env) (o o1 : Account) (c : Call)
    (h : o.call E c = some o1) (hinv : o.dirtyKeysCached) : o1.dirtyKeysCached := by
  cases c with
  | GetState key =>
    simp only [Account.call, Option.map_eq_some'] at h
    obtain ⟨⟨o', b, v⟩, hg, rfl⟩ := h
    exact (GetState_dirtyKeysCached o o' key b v hg hinv).1
  | SetState key value =>
    simp only [Account.call] at h
    obtain ⟨o', b, v, hg, rfl⟩ := SetState_cases o o1 key value h
    obtain ⟨h1, h2⟩ := GetState_dirtyKeysCached o o' key b v hg hinv
    intro k hk
    simp only [GoMap.mem_keys_set] at hk
    rcases hk with rfl | hk
    · exact h2
    · exact h1 k hk
  | SetCodeAndHash code =>
    simp only [Account.call, Option.some.injEq] at h
    subst h; exact hinv
  | Code =>
    simp only [Account.call, Option.map_eq_some'] at h
    obtain ⟨⟨o', c⟩, hg, rfl⟩ := h
    have := Code_frame o o' c hg
    intro k hk
    rw [this] at hk ⊢
    exact hinv k hk
  | SetNonce n =>
    simp only [Account.call, Option.some.injEq] at h
    subst h; exact hinv
  | SetBalance n =>
    simp only [Account.call, Option.some.injEq] at h
    subst h; exact hinv
  | getJournalIfModified order b =>
    simp only [Account.call, Option.map_eq_some'] at h
    obtain ⟨⟨o', b', j⟩, hg, rfl⟩ := h
    have := getJournalIfModified_frame E o o' order b b' j hg
    intro k hk
    rw [this] at hk ⊢
    exact hinv k hk

theorem calls_dirtyKeysCached (E : Env) (cs : List Call) (o o1 : Account)
    (h : o.calls E cs = some o1) (hinv : o.dirtyKeysCached) : o1.dirtyKeysCached := by
  induction cs generalizing o with
  | nil =>
    simp only [Account.calls, Option.some.injEq] at h
    subst h; exact hinv
  | cons c rest ih =>
    simp only [Account.calls] at h
    cases hc : o.call E c with
    | none => rw [hc] at h; simp at h
    | some o' =>
      rw [hc] at h
      exact ih o' h (call_dirtyKeysCached E o o' c hc hinv)

/-- C10: in every account state reached from `newAccount` by a sequence of `GetState`,
`SetState`, `SetCodeAndHash`, `Code`, `SetNonce`, `SetBalance` and
`getJournalIfModified` calls, every slot key of `dirtyState` is a key of `originState`. -/
theorem dirtyState_keys_in_originState (E : Env) (ldb : Storage) (addr : Address)
    (cs : List Call) (o : Account) (h : (newAccount ldb addr).calls E cs = some o) :
    ∀ k, k ∈ o.dirtyState.keys → k ∈ o.originState.keys :=
  calls_dirtyKeysCached E cs _ o h (fun k hk => by simp [newAccount, GoMap.keys, GoMap.empty] at hk)

/-- Witness of C10: a run with a slot write, a slot read, metadata and code writes and a
commit. -/
theorem dirtyState_keys_in_originState_witness :
    ∃ o, (newAccount storeSlot.toStorage addr1).calls exampleEnv exampleCalls = some o ∧
      ∀ k, k ∈ o.dirtyState.keys → k ∈ o.originState.keys := by
  have hs : ((newAccount storeSlot.toStorage addr1).calls exampleEnv exampleCalls).isSome = true := by
    decide
  obtain ⟨o, h⟩ := Option.isSome_iff_exists.1 hs
  exact ⟨o, h, dirtyState_keys_in_originState exampleEnv storeSlot.toStorage addr1 exampleCalls o h⟩

/-! ## The loops of `getStateJournalAndComputeHash` -/

theorem rangeDirtyState_eq (o : Account) (order : List (GoString × GoBytes))
    (b : Batch) (prev : GoMap) (keys : List GoString) :
    o.rangeDirtyState order (b, prev, keys) =
      if (order.filter o.slotChanged).all (fun e => (hex.DecodeString e.1).isSome) then
        some (b ++ (order.filter o.slotChanged).map o.slotOp,
          o.prevStatesFrom (order.filter o.slotChanged) prev,
          keys ++ (order.filter o.slotChanged).map Prod.fst)
      else none := by
  induction order generalizing b prev keys with
  | nil => simp [Account.rangeDirtyState, Account.prevStatesFrom]
  | cons e rest ih =>
    obtain ⟨key, val⟩ := e
    rw [Account.rangeDirtyState]
    by_cases hc : o.slotChanged (key, val) = true
    · have hc' : (!bytes.Equal (o.originState.index key) val) = true := hc
      simp only [hc', if_true, List.filter_cons, hc, List.all_cons, List.map_cons]
      cases hd : hex.DecodeString key with
      | none => simp
      | some byteKey =>
        simp only [Option.isSome_some, Bool.true_and]
        rw [ih]
        have hop : (if val.isSome = true then b ++ [BatchOp.Put (o.Addr.Bytes ++ byteKey) val]
            else b ++ [BatchOp.Delete (o.Addr.Bytes ++ byteKey)]) = b ++ [o.slotOp (key, val)] := by
          unfold Account.slotOp
          simp only [hd, Option.getD_some]
          split <;> rfl
        rw [hop]
        simp [Account.prevStatesFrom, List.append_assoc]
    · have hc1 : o.slotChanged (key, val) = false := by simpa using hc
      have hc' : (!bytes.Equal (o.originState.index key) val) = false := hc1
      simp only [hc', List.filter_cons, hc1]
      exact ih b prev keys

theorem getStateJournalAndComputeHash_eq (E : Env) (o : Account)
    (order : List (GoString × GoBytes)) (b : Batch) :
    o.getStateJournalAndComputeHash E order b =
      if (order.filter o.slotChanged).all (fun e => (hex.DecodeString e.1).isSome) then
        some ({ o with dirtyStateHash := E.sha256 (o.dirtyStateData
            (sort.Strings ((order.filter o.slotChanged).map Prod.fst)) []) },
          b ++ (order.filter o.slotChanged).map o.slotOp,
          o.prevStatesFrom (order.filter o.slotChanged) GoMap.empty)
      else none := by
  unfold Account.getStateJournalAndComputeHash
  rw [rangeDirtyState_eq]
  by_cases h : (order.filter o.slotChanged).all (fun e => (hex.DecodeString e.1).isSome) = true
  · simp only [h, if_true, List.nil_append]
  · simp only [h]
    rfl

theorem dirtyKeysEncoded_decodable (o : Account) (order : List (GoString × GoBytes))
    (hperm : order.Perm o.dirtyState.entries) (hkeys : o.dirtyKeysEncoded) :
    (order.filter o.slotChanged).all (fun e => (hex.DecodeString e.1).isSome) = true := by
  rw [List.all_eq_true]
  intro e he
  have h1 : e ∈ o.dirtyState.entries := hperm.subset (List.mem_of_mem_filter he)
  obtain ⟨key, hk⟩ := (isEncoded_iff _).1 (hkeys e.1 (List.mem_map.2 ⟨e, h1, rfl⟩))
  rw [hk, hex_decode_encode]; rfl

theorem filter_beq_singleton {α : Type} [BEq α] [LawfulBEq α] (l : List α) (a : α)
    (hnd : l.Nodup) (ha : a ∈ l) : l.filter (fun x => x == a) = [a] := by
  induction l with
  | nil => simp at ha
  | cons x l ih =>
    rw [List.nodup_cons] at hnd
    by_cases hx : x = a
    · subst hx
      have hnil : l.filter (fun y => y == x) = [] := by
        rw [List.filter_eq_nil_iff]
        intro y hy hyx
        have : y = x := by simpa using hyx
        subst this
        exact hnd.1 hy
      simp [List.filter_cons, hnil]
    · have ha' : a ∈ l := by
        rcases List.mem_cons.1 ha with h | h
        · exact absurd h.symm hx
        · exact h
      have hxa : (x == a) = false := by simpa using hx
      simp only [List.filter_cons, hxa]
      exact ih hnd.2 ha'

theorem slotOp_encoded (o : Account) (key : List Byte) (v : GoBytes) :
    o.slotOp (hex.EncodeToString key, v) =
      if v.isSome then BatchOp.Put (o.Addr.Bytes ++ key) v
      else BatchOp.Delete (o.Addr.Bytes ++ key) := by
  simp [Account.slotOp, hex_decode_encode]

theorem slotOp_key_encoded (o : Account) (key : List Byte) (v : GoBytes) :
    (o.slotOp (hex.EncodeToString key, v)).key = o.Addr.Bytes ++ key := by
  rw [slotOp_encoded]
  split <;> rfl

/-- C7 (as amended): `getStateJournalAndComputeHash` adds to the batch, for each
`dirtyState` entry `(k, v)` whose value differs from `originState[k]`, exactly one
operation on the slot key address-bytes ∥ decode(k): `Put(slot, v)` when `v` is not nil
(a non-nil `v` of length 0 included) and `Delete(slot)` when `v` is nil; an entry equal
to its origin value adds no operation, and no other operation is added. -/
theorem slot_operations (E : Env) (o : Account) (order : List (GoString × GoBytes))
    (batch : Batch) (hperm : order.Perm o.dirtyState.entries) (hkeys : o.dirtyKeysEncoded) :
    ∃ o1 prev added,
      o.getStateJournalAndComputeHash E order batch = some (o1, batch ++ added, prev) ∧
      (∀ key v, o.dirtyState.get (hex.EncodeToString key) = some v →
        added.filter (fun op => op.key == o.Addr.Bytes ++ key) =
          if bytes.Equal (o.originState.index (hex.EncodeToString key)) v then []
          else if v.isSome then [BatchOp.Put (o.Addr.Bytes ++ key) v]
          else [BatchOp.Delete (o.Addr.Bytes ++ key)]) ∧
      (∀ op, op ∈ added → ∃ key v, o.dirtyState.get (hex.EncodeToString key) = some v ∧
        op.key = o.Addr.Bytes ++ key) := by
  refine ⟨{ o with dirtyStateHash := E.sha256 (o.dirtyStateData
      (sort.Strings ((order.filter o.slotChanged).map Prod.fst)) []) },
    o.prevStatesFrom (order.filter o.slotChanged) GoMap.empty,
    (order.filter o.slotChanged).map o.slotOp, ?_, ?_, ?_⟩
  · rw [getStateJournalAndComputeHash_eq, dirtyKeysEncoded_decodable o order hperm hkeys]
    rfl
  · intro key v hget
    have hmem : (hex.EncodeToString key, v) ∈ order :=
      hperm.symm.subset ((GoMap.mem_entries_iff _ _ _).2 hget)
    have hnd : order.Nodup := hperm.nodup_iff.2 (List.Nodup.of_map _ o.dirtyState.nodup)
    rw [List.filter_map, List.filter_filter]
    have hcongr : order.filter (fun e =>
          ((fun op : BatchOp => op.key == o.Addr.Bytes ++ key) ∘ o.slotOp) e && o.slotChanged e) =
        (order.filter (fun e => e == (hex.EncodeToString key, v))).filter o.slotChanged := by
      rw [List.filter_filter]
      apply List.filter_congr
      rintro ⟨k, w⟩ he
      have he' : (k, w) ∈ o.dirtyState.entries := hperm.subset he
      obtain ⟨key', rfl⟩ := (isEncoded_iff _).1 (hkeys k (List.mem_map.2 ⟨(k, w), he', rfl⟩))
      have hw : o.dirtyState.get (hex.EncodeToString key') = some w :=
        (GoMap.mem_entries_iff _ _ _).1 he'
      simp only [Function.comp, slotOp_key_encoded]
      rw [Bool.and_comm]
      congr 1
      by_cases hk : key' = key
      · subst hk
        rw [hget] at hw
        cases hw
        simp
      · have h1 : ¬ (o.Addr.Bytes ++ key' = o.Addr.Bytes ++ key) := by
          intro h; exact hk (List.append_cancel_left h)
        have h2 : ¬ ((hex.EncodeToString key', w) = (hex.EncodeToString key, v)) := by
          intro h; exact hk (hex_encode_injective _ _ (Prod.mk.inj h).1)
        simp [h1, h2]
    rw [hcongr, filter_beq_singleton order _ hnd hmem]
    by_cases hc : bytes.Equal (o.originState.index (hex.EncodeToString key)) v = true
    · simp [List.filter_cons, Account.slotChanged, hc]
    · have hc' : bytes.Equal (o.originState.index (hex.EncodeToString key)) v = false := by
        simpa using hc
      simp only [List.filter_cons, Account.slotChanged, hc', Bool.not_false, if_true,
        List.filter_nil, List.map_cons, List.map_nil, slotOp_encoded]
      split <;> simp
  · intro op hop
    obtain ⟨⟨k, w⟩, he, rfl⟩ := List.mem_map.1 hop
    have he' : (k, w) ∈ o.dirtyState.entries := hperm.subset (List.mem_of_mem_filter he)
    obtain ⟨key', rfl⟩ := (isEncoded_iff _).1 (hkeys k (List.mem_map.2 ⟨(k, w), he', rfl⟩))
    exact ⟨key', w, (GoMap.mem_entries_iff _ _ _).1 he', slotOp_key_encoded o key' w⟩

theorem accountSlot_dirtyKeysEncoded : accountSlot.dirtyKeysEncoded := by
  unfold Account.dirtyKeysEncoded
  decide

/-- Witness of C7 (as amended): the account that overwrites slot `[0x10]`, ranged in the
order of its entries, into a fresh batch. -/
theorem slot_operations_witness :
    accountSlot.dirtyState.entries.Perm accountSlot.dirtyState.entries ∧
    accountSlot.dirtyKeysEncoded ∧
    ∃ o1 prev added,
      accountSlot.getStateJournalAndComputeHash exampleEnv accountSlot.dirtyState.entries [] =
        some (o1, [] ++ added, prev) ∧
      (∀ key v, accountSlot.dirtyState.get (hex.EncodeToString key) = some v →
        added.filter (fun op => op.key == accountSlot.Addr.Bytes ++ key) =
          if bytes.Equal (accountSlot.originState.index (hex.EncodeToString key)) v then []
          else if v.isSome then [BatchOp.Put (accountSlot.Addr.Bytes ++ key) v]
          else [BatchOp.Delete (accountSlot.Addr.Bytes ++ key)]) ∧
      (∀ op, op ∈ added → ∃ key v, accountSlot.dirtyState.get (hex.EncodeToString key) = some v ∧
        op.key = accountSlot.Addr.Bytes ++ key) :=
  ⟨List.Perm.refl _, accountSlot_dirtyKeysEncoded,
    slot_operations exampleEnv accountSlot accountSlot.dirtyState.entries []
      (List.Perm.refl _) accountSlot_dirtyKeysEncoded⟩

/-- C7, counterexample: the store holds `[0xAA]` in slot `[0x10]`; after
`SetState([0x10], []byte{})` the commit pass adds `Put(slot, []byte{})` for the empty
value, not `Delete(slot)`. -/
theorem slot_operation_empty_value :
    (((newAccount storeSlot.toStorage addr1).SetState [0x10] (some [])).bind
      (fun o => (o.getStateJournalAndComputeHash exampleEnv o.dirtyState.entries []).map
        (fun r => r.2.1))) = some [BatchOp.Put slot10 (some [])] ∧
    GoBytes.data (some []) = [] := by
  decide

theorem slotFunctions_of_frame (o o1 : Account)
    (h : o1 = { o with originCode := o1.originCode }) :
    o1.slotChanged = o.slotChanged ∧ o1.slotOp = o.slotOp := by
  constructor
  · funext e; unfold Account.slotChanged; rw [h]
  · funext e; unfold Account.slotOp Address.Bytes; rw [h]

/-- C8 (as amended): the operations `getJournalIfModified` appends to the batch are, in
this order: the metadata Put (if any), then the code Put or Delete (if any), then the
slot Puts and Deletes of the changed entries in the order in which `range` visits
`dirtyState`. -/
theorem batch_order (E : Env) (o o2 : Account) (order : List (GoString × GoBytes))
    (b b2 : Batch) (j : Option journal)
    (h : o.getJournalIfModified E order b = some (o2, b2, j)) :
    ∃ metadata code,
      b2 = b ++ metadata ++ code ++ (order.filter o.slotChanged).map o.slotOp ∧
      (metadata = [] ∨ ∃ d data, o.dirtyAccount = some d ∧ d.Marshal E = some data ∧
        metadata = [BatchOp.Put (compositeKey accountKey o.Addr.Hex) (some data)]) ∧
      (code = [] ∨ code = [BatchOp.Put (compositeKey codeKey o.Addr.Hex) o.dirtyCode] ∨
        code = [BatchOp.Delete (compositeKey codeKey o.Addr.Hex)]) := by
  obtain ⟨b1, e1, o1, prev, ha, hl, hs, _⟩ := getJournalIfModified_inv E o o2 order b b2 j h
  have h1 := loadOriginCode_frame o o1 hl
  obtain ⟨hsc, hso⟩ := slotFunctions_of_frame o o1 h1
  have hb1 : ∃ metadata, b1 = b ++ metadata ∧
      (metadata = [] ∨ ∃ d data, o.dirtyAccount = some d ∧ d.Marshal E = some data ∧
        metadata = [BatchOp.Put (compositeKey accountKey o.Addr.Hex) (some data)]) := by
    unfold Account.journalAccount at ha
    split at ha
    · split at ha
      · simp at ha
      · rename_i d hd
        split at ha
        · simp at ha
        · rename_i data hm
          simp only [Option.some.injEq, Prod.mk.injEq] at ha
          exact ⟨_, ha.1.symm, Or.inr ⟨d, data, hd, hm, rfl⟩⟩
    · simp only [Option.some.injEq, Prod.mk.injEq] at ha
      exact ⟨[], by simp [ha.1], Or.inl rfl⟩
  obtain ⟨metadata, rfl, hmeta⟩ := hb1
  have hb2 : ∃ code, (o1.journalCode (b ++ metadata) e1).1 = b ++ metadata ++ code ∧
      (code = [] ∨ code = [BatchOp.Put (compositeKey codeKey o.Addr.Hex) o.dirtyCode] ∨
        code = [BatchOp.Delete (compositeKey codeKey o.Addr.Hex)]) := by
    have hA : o1.Addr = o.Addr := by rw [h1]
    have hD : o1.dirtyCode = o.dirtyCode := by rw [h1]
    unfold Account.journalCode
    split
    · split
      · exact ⟨_, rfl, Or.inr (Or.inl (by rw [hA, hD]))⟩
      · exact ⟨_, rfl, Or.inr (Or.inr (by rw [hA]))⟩
    · exact ⟨[], by simp, Or.inl rfl⟩
  obtain ⟨code, hcode, hcases⟩ := hb2
  refine ⟨metadata, code, ?_, hmeta, hcases⟩
  rw [getStateJournalAndComputeHash_eq, hcode] at hs
  split at hs
  · simp only [Option.some.injEq, Prod.mk.injEq] at hs
    rw [← hs.2.1, hsc, hso]
  · simp at hs

/-- Witness of C8 (as amended): the run `exampleCalls` without its commit, then the
commit into a fresh batch. -/
theorem batch_order_witness :
    ∃ o o2 b2 j,
      (newAccount storeSlot.toStorage addr1).calls exampleEnv exampleCalls.dropLast = some o ∧
      o.getJournalIfModified exampleEnv o.dirtyState.entries [] = some (o2, b2, j) ∧
      ∃ metadata code,
        b2 = [] ++ metadata ++ code ++ (o.dirtyState.entries.filter o.slotChanged).map o.slotOp ∧
        (metadata = [] ∨ ∃ d data, o.dirtyAccount = some d ∧ d.Marshal exampleEnv = some data ∧
          metadata = [BatchOp.Put (compositeKey accountKey o.Addr.Hex) (some data)]) ∧
        (code = [] ∨ code = [BatchOp.Put (compositeKey codeKey o.Addr.Hex) o.dirtyCode] ∨
          code = [BatchOp.Delete (compositeKey codeKey o.Addr.Hex)]) := by
  have hs : ((newAccount storeSlot.toStorage addr1).calls exampleEnv exampleCalls.dropLast).isSome
      = true := by decide
  obtain ⟨o, ho⟩ := Option.isSome_iff_exists.1 hs
  have hs2 : (((newAccount storeSlot.toStorage addr1).calls exampleEnv exampleCalls.dropLast).bind
      (fun o => o.getJournalIfModified exampleEnv o.dirtyState.entries [])).isSome = true := by
    decide
  rw [ho] at hs2
  obtain ⟨⟨o2, b2, j⟩, h⟩ := Option.isSome_iff_exists.1 hs2
  exact ⟨o, o2, b2, j, ho, h, batch_order exampleEnv o o2 _ [] b2 j h⟩

/-- C8, counterexample: over an empty store, after `SetState([0x01], [0x01])` and
`SetState([0x02], [0x02])`, a `range` that visits slot `[0x02]` before slot `[0x01]`
makes `getJournalIfModified` add the Put of slot `[0x02]` before the Put of slot
`[0x01]`, although the slot key of `[0x01]` is the smaller one. -/
theorem batch_order_not_sorted :
    (((newAccount storeEmpty.toStorage addr1).setStates
        [([0x01], some [0x01]), ([0x02], some [0x02])]).bind
      (fun o => (o.getJournalIfModified exampleEnv orderDescending []).map
        (fun r => (decide (o.dirtyState.entries = orderDescending), r.2.1)))) =
      some (true, [BatchOp.Put (addr1.Bytes ++ [0x02]) (some [0x02]),
        BatchOp.Put (addr1.Bytes ++ [0x01]) (some [0x01])]) ∧
    bytesLess (addr1.Bytes ++ [0x01]) (addr1.Bytes ++ [0x02]) = true := by
  decide

/-! ## Byte order and sorting -/

theorem bytesLess_irrefl (a : List Byte) : bytesLess a a = false := by
  induction a with
  | nil => rfl
  | cons x a ih => simp [bytesLess, ih]

theorem bytesLess_antisymm (a b : List Byte) (h1 : bytesLess a b = false)
    (h2 : bytesLess b a = false) : a = b := by
  induction a generalizing b with
  | nil =>
    cases b with
    | nil => rfl
    | cons y b => simp [bytesLess] at h1
  | cons x a ih =>
    cases b with
    | nil => simp [bytesLess] at h2
    | cons y b =>
      simp only [bytesLess, Bool.or_eq_false_iff, Bool.and_eq_false_iff, decide_eq_false_iff_not]
        at h1 h2
      have hxy : x = y := le_antisymm (not_lt.1 h2.1) (not_lt.1 h1.1)
      subst hxy
      rcases h1.2 with h | h
      · exact absurd rfl h
      · rcases h2.2 with h' | h'
        · exact absurd rfl h'
        · rw [ih b h h']

theorem bytesLess_trans (a b c : List Byte) (h1 : bytesLess a b = true)
    (h2 : bytesLess b c = true) : bytesLess a c = true := by
  induction a generalizing b c with
  | nil =>
    cases c with
    | nil => cases b <;> simp [bytesLess] at h1 h2
    | cons z c => rfl
  | cons x a ih =>
    cases b with
    | nil => simp [bytesLess] at h1
    | cons y b =>
      cases c with
      | nil => simp [bytesLess] at h2
      | cons z c =>
        simp only [bytesLess, Bool.or_eq_true, Bool.and_eq_true, decide_eq_true_eq] at h1 h2 ⊢
        rcases h1 with h1 | ⟨rfl, h1⟩
        · rcases h2 with h2 | ⟨rfl, h2⟩
          · exact Or.inl (lt_trans h1 h2)
          · exact Or.inl h1
        · rcases h2 with h2 | ⟨rfl, h2⟩
          · exact Or.inl h2
          · exact Or.inr ⟨rfl, ih b c h1 h2⟩

theorem bytesLess_asymm (a b : List Byte) (h : bytesLess a b = true) : bytesLess b a = false := by
  cases h2 : bytesLess b a with
  | false => rfl
  | true =>
    have := bytesLess_trans a b a h h2
    rw [bytesLess_irrefl] at this
    exact absurd this (by simp)

theorem strLE_trans (a b c : GoString) (h1 : strLE a b) (h2 : strLE b c) : strLE a c := by
  unfold strLE at *
  cases h : bytesLess c a with
  | false => rfl
  | true =>
    cases hab : bytesLess a b with
    | true =>
      have := bytesLess_trans c a b h hab
      rw [h2] at this
      exact absurd this (by simp)
    | false =>
      have hEq : a = b := bytesLess_antisymm a b hab h1
      subst hEq
      rw [h2] at h
      exact absurd h (by simp)

theorem insertString_perm (s : GoString) (l : List GoString) :
    (insertString s l).Perm (s :: l) := by
  induction l with
  | nil => exact List.Perm.refl _
  | cons t rest ih =>
    unfold insertString
    split
    · exact ((List.Perm.cons t ih).trans (List.Perm.swap s t rest))
    · exact List.Perm.refl _

theorem sortStrings_perm (l : List GoString) : (sort.Strings l).Perm l := by
  induction l with
  | nil => exact List.Perm.refl _
  | cons s rest ih =>
    unfold sort.Strings
    exact (insertString_perm s _).trans (List.Perm.cons s ih)

theorem insertString_sorted (s : GoString) (l : List GoString)
    (h : l.Pairwise strLE) : (insertString s l).Pairwise strLE := by
  induction l with
  | nil => simp [insertString]
  | cons t rest ih =>
    rw [List.pairwise_cons] at h
    unfold insertString
    split
    · rename_i hts
      rw [List.pairwise_cons]
      refine ⟨?_, ih h.2⟩
      intro x hx
      rcases List.mem_cons.1 ((insertString_perm s rest).subset hx) with rfl | hx'
      · exact bytesLess_asymm t x hts
      · exact h.1 x hx'
    · rename_i hts
      have hst : strLE s t := by
        unfold strLE; simpa using hts
      rw [List.pairwise_cons]
      refine ⟨?_, List.pairwise_cons.2 h⟩
      intro x hx
      rcases List.mem_cons.1 hx with rfl | hx'
      · exact hst
      · exact strLE_trans s t x hst (h.1 x hx')

theorem sortStrings_sorted (l : List GoString) : (sort.Strings l).Pairwise strLE := by
  induction l with
  | nil => exact List.Pairwise.nil
  | cons s rest ih =>
    unfold sort.Strings
    exact insertString_sorted s _ ih

theorem sortStrings_eq_of_perm (l1 l2 : List GoString) (h : l1.Perm l2) :
    sort.Strings l1 = sort.Strings l2 :=
  @List.eq_of_perm_of_sorted _ strLE ⟨fun a b h1 h2 => bytesLess_antisymm a b h2 h1⟩ _ _
    (((sortStrings_perm l1).trans h).trans (sortStrings_perm l2).symm)
    (sortStrings_sorted l1) (sortStrings_sorted l2)

/-! ## Accounts written only through `SetState` -/

theorem GetState_originFromStore (o o1 : Account) (key : List Byte) (b : Bool) (v : GoBytes)
    (h : o.GetState key = some (o1, b, v)) (hinv : o.originFromStore) : o1.originFromStore := by
  obtain ⟨_, h1, h2⟩ := GetState_cases o o1 key b v h
  have hA : o1.Addr = o.Addr := by rw [h1]
  have hL : o1.ldb = o.ldb := by rw [h1]
  intro k w hk
  rw [hA, hL]
  rcases h2 with ⟨h3, _⟩ | ⟨_, _, h3, h4⟩
  · rw [h3] at hk; exact hinv k w hk
  · rw [h3, GoMap.get_set] at hk
    by_cases hkk : k = hex.EncodeToString key
    · simp only [hkk, if_true, Option.some.injEq] at hk
      subst hk
      exact ⟨key, hkk, h4⟩
    · simp only [hkk, if_false] at hk
      exact hinv k w hk

theorem SetState_inv (o o2 : Account) (key : List Byte) (value : GoBytes)
    (h : o.SetState key value = some o2)
    (hinv : o.dirtyKeysCached ∧ o.dirtyKeysEncoded ∧ o.originFromStore) :
    (o2.dirtyKeysCached ∧ o2.dirtyKeysEncoded ∧ o2.originFromStore) ∧
    o2 = { o with originState := o2.originState, dirtyState := o2.dirtyState } := by
  obtain ⟨o1, b, v, hg, rfl⟩ := SetState_cases o o2 key value h
  obtain ⟨_, h1, _⟩ := GetState_cases o o1 key b v hg
  obtain ⟨hc1, hmem⟩ := GetState_dirtyKeysCached o o1 key b v hg hinv.1
  have hd : o1.dirtyState = o.dirtyState := by rw [h1]
  refine ⟨⟨?_, ?_, ?_⟩, ?_⟩
  · intro k hk
    simp only [GoMap.mem_keys_set] at hk
    rcases hk with rfl | hk
    · exact hmem
    · exact hc1 k hk
  · intro k hk
    simp only [GoMap.mem_keys_set] at hk
    rcases hk with rfl | hk
    · exact (isEncoded_iff _).2 ⟨key, rfl⟩
    · rw [hd] at hk; exact hinv.2.1 k hk
  · exact GetState_originFromStore o o1 key b v hg hinv.2.2
  · rw [h1]

theorem setStates_inv (cs : List (List Byte × GoBytes)) (o o1 : Account)
    (h : o.setStates cs = some o1)
    (hinv : o.dirtyKeysCached ∧ o.dirtyKeysEncoded ∧ o.originFromStore) :
    (o1.dirtyKeysCached ∧ o1.dirtyKeysEncoded ∧ o1.originFromStore) ∧
    o1 = { o with originState := o1.originState, dirtyState := o1.dirtyState } := by
  induction cs generalizing o with
  | nil =>
    simp only [Account.setStates, Option.some.injEq] at h
    subst h
    exact ⟨hinv, rfl⟩
  | cons c rest ih =>
    obtain ⟨key, value⟩ := c
    simp only [Account.setStates] at h
    cases hc : o.SetState key value with
    | none => rw [hc] at h; simp at h
    | some o' =>
      rw [hc] at h
      obtain ⟨hinv', hf⟩ := SetState_inv o o' key value hc hinv
      obtain ⟨hinv1, hf1⟩ := ih o' h hinv'
      refine ⟨hinv1, ?_⟩
      rw [hf1, hf]

theorem newAccount_inv (ldb : Storage) (addr : Address) :
    (newAccount ldb addr).dirtyKeysCached ∧ (newAccount ldb addr).dirtyKeysEncoded ∧
      (newAccount ldb addr).originFromStore := by
  refine ⟨?_, ?_, ?_⟩
  · intro k hk; simp [newAccount, GoMap.keys, GoMap.empty] at hk
  · intro k hk; simp [newAccount, GoMap.keys, GoMap.empty] at hk
  · intro k v hk; simp [newAccount, GoMap.get, GoMap.empty] at hk

theorem Storage.cached_unique (ldb : Storage) (k : List Byte) (v w : GoBytes)
    (h1 : ldb.cached k v) (h2 : ldb.cached k w) : v = w := by
  unfold Storage.cached at h1 h2
  rcases h1 with h1 | ⟨h1, rfl⟩ <;> rcases h2 with h2 | ⟨h2, rfl⟩
  · rw [h1] at h2; cases h2; rfl
  · rw [h1] at h2; cases h2
  · rw [h1] at h2; cases h2
  · rfl

theorem originState_index_eq (a b : Account) (hA : a.Addr = b.Addr) (hL : a.ldb = b.ldb)
    (ha : a.dirtyKeysCached ∧ a.dirtyKeysEncoded ∧ a.originFromStore)
    (hb : b.dirtyKeysCached ∧ b.dirtyKeysEncoded ∧ b.originFromStore)
    (k : GoString) (hka : k ∈ a.dirtyState.keys) (hkb : k ∈ b.dirtyState.keys) :
    a.originState.index k = b.originState.index k := by
  obtain ⟨va, hva⟩ := (GoMap.mem_keys_iff _ _).1 (ha.1 k hka)
  obtain ⟨vb, hvb⟩ := (GoMap.mem_keys_iff _ _).1 (hb.1 k hkb)
  obtain ⟨keyA, hkA, hcA⟩ := ha.2.2 k va hva
  obtain ⟨keyB, hkB, hcB⟩ := hb.2.2 k vb hvb
  have hkeys : keyA = keyB := hex_encode_injective _ _ (hkA.symm.trans hkB)
  subst hkeys
  rw [hA, hL] at hcA
  have := Storage.cached_unique _ _ _ _ hcA hcB
  simp only [GoMap.index, hva, hvb, Option.getD_some, this]

theorem dirtyStateData_congr (a b : Account)
    (h : ∀ k, a.dirtyState.get k = b.dirtyState.get k) (keys : List GoString) (acc : List Byte) :
    a.dirtyStateData keys acc = b.dirtyStateData keys acc := by
  induction keys generalizing acc with
  | nil => rfl
  | cons k rest ih =>
    simp only [Account.dirtyStateData, GoMap.index, h k]
    exact ih _

theorem getStateJournalAndComputeHash_encoded (E : Env) (o : Account)
    (order : List (GoString × GoBytes)) (b : Batch)
    (hperm : order.Perm o.dirtyState.entries) (hkeys : o.dirtyKeysEncoded) :
    o.getStateJournalAndComputeHash E order b =
      some ({ o with dirtyStateHash := E.sha256 (o.dirtyStateData
            (sort.Strings ((order.filter o.slotChanged).map Prod.fst)) []) },
        b ++ (order.filter o.slotChanged).map o.slotOp,
        o.prevStatesFrom (order.filter o.slotChanged) GoMap.empty) := by
  rw [getStateJournalAndComputeHash_eq, dirtyKeysEncoded_decodable o order hperm hkeys]
  rfl

/-- C2: two sequences of `SetState` calls on fresh accounts over the same store and
address, permutations of each other, that yield the same final dirty map give the same
`dirtyStateHash` after `getStateJournalAndComputeHash`, whatever the order in which
`range` visits either dirty map. -/
theorem dirtyStateHash_order_independent (E : Env) (ldb : Storage) (addr : Address)
    (callsA callsB : List (List Byte × GoBytes)) (a b : Account)
    (orderA orderB : List (GoString × GoBytes)) (batchA batchB : Batch)
    (_hperm : callsA.Perm callsB)
    (ha : (newAccount ldb addr).setStates callsA = some a)
    (hb : (newAccount ldb addr).setStates callsB = some b)
    (hsame : ∀ k, a.dirtyState.get k = b.dirtyState.get k)
    (hoA : orderA.Perm a.dirtyState.entries) (hoB : orderB.Perm b.dirtyState.entries) :
    ∃ a1 b1 batchA1 batchB1 prevA prevB,
      a.getStateJournalAndComputeHash E orderA batchA = some (a1, batchA1, prevA) ∧
      b.getStateJournalAndComputeHash E orderB batchB = some (b1, batchB1, prevB) ∧
      a1.dirtyStateHash = b1.dirtyStateHash := by
  obtain ⟨hia, hfa⟩ := setStates_inv callsA _ a ha (newAccount_inv ldb addr)
  obtain ⟨hib, hfb⟩ := setStates_inv callsB _ b hb (newAccount_inv ldb addr)
  have hA : a.Addr = b.Addr := by rw [hfa, hfb]
  have hL : a.ldb = b.ldb := by rw [hfa, hfb]
  have hentries : a.dirtyState.entries.Perm b.dirtyState.entries :=
    GoMap.entries_perm_of_get_eq _ _ hsame
  have hfilter : (orderA.filter a.slotChanged).Perm (orderB.filter b.slotChanged) := by
    have h1 : (orderA.filter a.slotChanged).Perm (orderB.filter a.slotChanged) :=
      ((hoA.trans hentries).trans hoB.symm).filter _
    have h2 : orderB.filter a.slotChanged = orderB.filter b.slotChanged := by
      apply List.filter_congr
      intro e he
      have heb : e ∈ b.dirtyState.entries := hoB.subset he
      have hea : e ∈ a.dirtyState.entries := hentries.symm.subset heb
      unfold Account.slotChanged
      rw [originState_index_eq a b hA hL hia hib e.1
        (List.mem_map.2 ⟨e, hea, rfl⟩) (List.mem_map.2 ⟨e, heb, rfl⟩)]
    rw [← h2]; exact h1
  have hsorted := sortStrings_eq_of_perm _ _ (hfilter.map Prod.fst)
  refine ⟨_, _, _, _, _, _,
    getStateJournalAndComputeHash_encoded E a orderA batchA hoA hia.2.1,
    getStateJournalAndComputeHash_encoded E b orderB batchB hoB hib.2.1, ?_⟩
  show E.sha256 _ = E.sha256 _
  rw [hsorted, dirtyStateData_congr a b hsame]

theorem GoMap.get_eq_of_entries_perm (m1 m2 : GoMap) (h : m1.entries.Perm m2.entries)
    (k : GoString) : m1.get k = m2.get k := by
  apply Option.ext
  intro v
  rw [Option.mem_def, Option.mem_def, ← GoMap.mem_entries_iff, ← GoMap.mem_entries_iff]
  exact h.mem_iff

/-- Witness of C2: the slots `[0x02]` and `[0x10]` written in the two possible orders
over a store that holds slot `[0x10]`. -/
theorem dirtyStateHash_order_independent_witness :
    ∃ a b,
      (newAccount storeSlot.toStorage addr1).setStates
        [([0x02], some [0x02]), ([0x10], some [0xBB])] = some a ∧
      (newAccount storeSlot.toStorage addr1).setStates
        [([0x10], some [0xBB]), ([0x02], some [0x02])] = some b ∧
      (∀ k, a.dirtyState.get k = b.dirtyState.get k) ∧
      ∃ a1 b1 batchA1 batchB1 prevA prevB,
        a.getStateJournalAndComputeHash exampleEnv a.dirtyState.entries [] =
          some (a1, batchA1, prevA) ∧
        b.getStateJournalAndComputeHash exampleEnv b.dirtyState.entries [] =
          some (b1, batchB1, prevB) ∧
        a1.dirtyStateHash = b1.dirtyStateHash := by
  have hsa : (((newAccount storeSlot.toStorage addr1).setStates
      [([0x02], some [0x02]), ([0x10], some [0xBB])]).map (fun o => o.dirtyState.entries)) =
      some [(hex.EncodeToString [0x10], some [0xBB]), (hex.EncodeToString [0x02], some [0x02])] := by
    decide
  have hsb : (((newAccount storeSlot.toStorage addr1).setStates
      [([0x10], some [0xBB]), ([0x02], some [0x02])]).map (fun o => o.dirtyState.entries)) =
      some [(hex.EncodeToString [0x02], some [0x02]), (hex.EncodeToString [0x10], some [0xBB])] := by
    decide
  obtain ⟨a, ha, hea⟩ := Option.map_eq_some'.1 hsa
  obtain ⟨b, hb, heb⟩ := Option.map_eq_some'.1 hsb
  have hsame : ∀ k, a.dirtyState.get k = b.dirtyState.get k :=
    GoMap.get_eq_of_entries_perm _ _ (by rw [hea, heb]; exact List.Perm.swap _ _ _)
  exact ⟨a, b, ha, hb, hsame,
    dirtyStateHash_order_independent exampleEnv storeSlot.toStorage addr1 _ _ a b _ _ [] []
      (List.Perm.swap _ _ _) ha hb hsame (List.Perm.refl _) (List.Perm.refl _)⟩

/-! ## The in-memory store -/

theorem lookup_filter_self {β : Type} (k : GoString) (l : List (GoString × β)) :
    (l.filter (fun e => e.1 != k)).lookup k = none := by
  induction l with
  | nil => rfl
  | cons e l ih =>
    obtain ⟨a, b⟩ := e
    by_cases ha : a = k
    · subst ha
      simp [List.filter_cons, ih]
    · have h2 : (a != k) = true := by simpa using ha
      have h3 : (k == a) = false := by simpa using fun h : k = a => ha h.symm
      simp only [List.filter_cons, h2, if_true, List.lookup_cons, h3, ih]

theorem KV.get_put (s : KV) (k v K : List Byte) :
    (s.put k v).get K = if K = k then some v else s.get K := by
  unfold KV.get KV.put
  by_cases h : K = k
  · subst h; simp [List.lookup_cons]
  · have h1 : (K == k) = false := by simpa using h
    simp only [List.lookup_cons, h1, h, if_false]
    exact lookup_filter_ne k K h _

theorem KV.get_delete (s : KV) (k K : List Byte) :
    (s.delete k).get K = if K = k then none else s.get K := by
  unfold KV.get KV.delete
  by_cases h : K = k
  · subst h; simp only [if_true]; exact lookup_filter_self K s
  · simp only [h, if_false]
    exact lookup_filter_ne k K h _

theorem KV.get_applyOp_of_ne (s : KV) (op : BatchOp) (K : List Byte) (h : op.key ≠ K) :
    (s.applyOp op).get K = s.get K := by
  cases op with
  | Put k v =>
    have h' : ¬ K = k := fun e => h e.symm
    simp only [KV.applyOp, KV.get_put, h', if_false]
  | Delete k =>
    have h' : ¬ K = k := fun e => h e.symm
    simp only [KV.applyOp, KV.get_delete, h', if_false]

theorem KV.get_commit_of_ne (b : Batch) (s : KV) (K : List Byte)
    (h : ∀ op, op ∈ b → op.key ≠ K) : (s.commit b).get K = s.get K := by
  induction b generalizing s with
  | nil => rfl
  | cons op rest ih =>
    unfold KV.commit
    rw [List.foldl_cons]
    have := ih (s.applyOp op) (fun op' h' => h op' (List.mem_cons_of_mem _ h'))
    unfold KV.commit at this
    rw [this, KV.get_applyOp_of_ne s op K (h op (List.mem_cons_self _ _))]

theorem KV.cached_toStorage (s : KV) (k : List Byte) (v : GoBytes)
    (h : s.toStorage.cached k v) : v = s.get k := by
  unfold Storage.cached KV.toStorage at h
  simp only at h
  cases hg : s.get k with
  | none => rw [hg] at h; simpa using h
  | some x =>
    rw [hg] at h
    simp only [GetResult.ok.injEq, false_and, or_false, reduceCtorEq] at h
    exact h.symm

/-- Slot key that a pre-image entry is re-applied to. -/
theorem revertSlot_get (addr : Address) (S s : KV) (key K : List Byte) (p : GoBytes)
    (hp : p = S.get (addr.Bytes ++ key)) :
    (revertSlot addr s (hex.EncodeToString key, p)).get K =
      if K = addr.Bytes ++ key then S.get K else s.get K := by
  unfold revertSlot
  simp only [hex_decode_encode]
  cases p with
  | none =>
    simp only [KV.get_delete]
    split
    · rename_i h; rw [h, ← hp]
    · rfl
  | some v =>
    simp only [KV.get_put]
    split
    · rename_i h; rw [h, ← hp]
    · rfl

theorem revertSlots_get (addr : Address) (S : KV) (es : List (GoString × GoBytes))
    (hes : ∀ e, e ∈ es → ∃ key, e.1 = hex.EncodeToString key ∧ e.2 = S.get (addr.Bytes ++ key))
    (s : KV) (K : List Byte) :
    ((es.foldl (revertSlot addr) s).get K = S.get K ∧
        ∃ e key, e ∈ es ∧ e.1 = hex.EncodeToString key ∧ K = addr.Bytes ++ key) ∨
      ((es.foldl (revertSlot addr) s).get K = s.get K ∧
        ∀ e key, e ∈ es → e.1 = hex.EncodeToString key → K ≠ addr.Bytes ++ key) := by
  induction es generalizing s with
  | nil => exact Or.inr ⟨rfl, fun e key he => by simp at he⟩
  | cons e rest ih =>
    rw [List.foldl_cons]
    obtain ⟨key, hk, hp⟩ := hes e (List.mem_cons_self _ _)
    obtain ⟨k, p⟩ := e
    simp only at hk hp
    subst hk
    rcases ih (fun e' h' => hes e' (List.mem_cons_of_mem _ h'))
        (revertSlot addr s (hex.EncodeToString key, p)) with
      ⟨h1, e', key', hm, h2, h3⟩ | ⟨h1, h2⟩
    · exact Or.inl ⟨h1, e', key', List.mem_cons_of_mem _ hm, h2, h3⟩
    · rw [revertSlot_get addr S s key K p hp] at h1
      by_cases hK : K = addr.Bytes ++ key
      · rw [if_pos hK] at h1
        exact Or.inl ⟨h1, _, key, List.mem_cons_self _ _, rfl, hK⟩
      · rw [if_neg hK] at h1
        refine Or.inr ⟨h1, ?_⟩
        intro e' key' hm hk'
        rcases List.mem_cons.1 hm with rfl | hm
        · have : key' = key := (hex_encode_injective _ _ hk').symm
          rw [this]; exact hK
        · exact h2 e' key' hm hk'

/-! ## The pre-image map -/

theorem prevStatesFrom_get (o : Account) (l : List (GoString × GoBytes)) (m : GoMap)
    (k : GoString) :
    ((o.prevStatesFrom l m).get k = some (o.originState.index k) ∧ ∃ e, e ∈ l ∧ e.1 = k) ∨
      ((o.prevStatesFrom l m).get k = m.get k ∧ ∀ e, e ∈ l → e.1 ≠ k) := by
  induction l generalizing m with
  | nil => exact Or.inr ⟨rfl, fun e he => by simp at he⟩
  | cons e rest ih =>
    unfold Account.prevStatesFrom
    rw [List.foldl_cons]
    rcases ih (m.set e.1 (o.originState.index e.1)) with ⟨h1, e', hm, h2⟩ | ⟨h1, h2⟩
    · exact Or.inl ⟨h1, e', List.mem_cons_of_mem _ hm, h2⟩
    · unfold Account.prevStatesFrom at h1
      rw [GoMap.get_set] at h1
      by_cases hk : k = e.1
      · simp only [hk, if_true] at h1
        refine Or.inl ⟨?_, e, List.mem_cons_self _ _, hk.symm⟩
        rw [hk]; exact h1
      · simp only [hk, if_false] at h1
        refine Or.inr ⟨h1, ?_⟩
        intro e' hm
        rcases List.mem_cons.1 hm with rfl | hm
        · exact fun h => hk h.symm
        · exact h2 e' hm

/-! ## Commit of an account written only through `SetState` -/

theorem getJournalIfModified_slots_only (E : Env) (o : Account)
    (order : List (GoString × GoBytes)) (b : Batch)
    (h1 : o.originAccount = none) (h2 : o.dirtyAccount = none)
    (h3 : o.originCode = none) (h4 : o.dirtyCode = none) :
    o.getJournalIfModified E order b =
      (o.getStateJournalAndComputeHash E order b).map
        (fun r => (r.1, r.2.1, journalStates o.newEntry r.2.2)) := by
  have ha : o.journalAccount E b o.newEntry = some (b, o.newEntry) := by
    simp [Account.journalAccount, h1, h2, innerAccountChanged]
  have hl : o.loadOriginCode = some o := by
    simp [Account.loadOriginCode, h1, h3]
  have hc : o.journalCode b o.newEntry = (b, o.newEntry) := by
    simp [Account.journalCode, h3, h4, bytes.Equal]
  unfold Account.getJournalIfModified
  simp only
  have ha' : o.journalAccount E b
      { Address := o.Addr, AccountChanged := false, PrevAccount := none,
        CodeChanged := false, PrevCode := none, PrevStates := GoMap.empty } =
      some (b, o.newEntry) := ha
  rw [ha']
  simp only [hl, hc]
  cases o.getStateJournalAndComputeHash E order b with
  | none => rfl
  | some r => rfl

theorem revertSlots_eq (addr : Address) (entry : Option journal) (s : KV) :
    revertSlots addr entry s = (prevStatesOf entry).entries.foldl (revertSlot addr) s := by
  cases entry <;> rfl

theorem prevStatesOf_journalStates (o : Account) (prev : GoMap) :
    (prevStatesOf (journalStates o.newEntry prev)).entries = prev.entries := by
  unfold journalStates
  by_cases h : prev.len = 0
  · have hnil : prev.entries = [] := List.length_eq_zero.1 h
    simp [h, Account.newEntry, prevStatesOf, GoMap.len, GoMap.empty, hnil]
  · simp [h, Account.newEntry, prevStatesOf]

theorem originState_index_store (S : KV) (o : Account) (hL : o.ldb = S.toStorage)
    (hinv : o.dirtyKeysCached ∧ o.dirtyKeysEncoded ∧ o.originFromStore)
    (k : GoString) (hk : k ∈ o.dirtyState.keys) :
    ∃ key, k = hex.EncodeToString key ∧ o.originState.index k = S.get (o.Addr.Bytes ++ key) := by
  obtain ⟨v, hv⟩ := (GoMap.mem_keys_iff _ _).1 (hinv.1 k hk)
  obtain ⟨key, hkey, hc⟩ := hinv.2.2 k v hv
  rw [hL] at hc
  refine ⟨key, hkey, ?_⟩
  rw [← KV.cached_toStorage S _ v hc]
  simp [GoMap.index, hv]

/-- C4: for an account created by `newAccount` over a store `S` and written only
through `SetState`, `getJournalIfModified` returns, and each pre-image `prev_states[k]`
of the entry is the value `S` holds under address-bytes ∥ decode(k) (absent when `S` has
no such key); committing the batch to `S` and then re-applying every pre-image under its
slot key (Put when present, Delete when absent) gives back the content of `S`. -/
theorem journal_restores_store (E : Env) (S : KV) (addr : Address)
    (cs : List (List Byte × GoBytes)) (o : Account) (order : List (GoString × GoBytes))
    (hrun : (newAccount S.toStorage addr).setStates cs = some o)
    (hperm : order.Perm o.dirtyState.entries) :
    ∃ o2 batch entry,
      o.getJournalIfModified E order [] = some (o2, batch, entry) ∧
      (∀ k p, (prevStatesOf entry).get k = some p →
        ∃ key, hex.DecodeString k = some key ∧ p = S.get (addr.Bytes ++ key)) ∧
      (∀ K, (revertSlots addr entry (S.commit batch)).get K = S.get K) := by
  obtain ⟨hinv, hf⟩ := setStates_inv cs _ o hrun (newAccount_inv S.toStorage addr)
  have hA : o.Addr = addr := by rw [hf]; rfl
  have hL : o.ldb = S.toStorage := by rw [hf]; rfl
  have h1 : o.originAccount = none := by rw [hf]; rfl
  have h2 : o.dirtyAccount = none := by rw [hf]; rfl
  have h3 : o.originCode = none := by rw [hf]; rfl
  have h4 : o.dirtyCode = none := by rw [hf]; rfl
  have hsub : ∀ e, e ∈ order.filter o.slotChanged → e.1 ∈ o.dirtyState.keys := fun e he =>
    List.mem_map.2 ⟨e, hperm.subset (List.mem_of_mem_filter he), rfl⟩
  -- every entry of the pre-image map is the store value of its slot
  have hgood : ∀ e, e ∈ (o.prevStatesFrom (order.filter o.slotChanged) GoMap.empty).entries →
      ∃ key, e.1 = hex.EncodeToString key ∧ e.2 = S.get (addr.Bytes ++ key) := by
    rintro ⟨k, p⟩ he
    have hget := (GoMap.mem_entries_iff _ _ _).1 he
    rcases prevStatesFrom_get o (order.filter o.slotChanged) GoMap.empty k with
      ⟨hg, e', hm, rfl⟩ | ⟨hg, _⟩
    · rw [hg] at hget
      obtain ⟨key, hkey, hidx⟩ := originState_index_store S o hL hinv e'.1 (hsub e' hm)
      refine ⟨key, hkey, ?_⟩
      rw [← hA, ← hidx]
      exact (Option.some.inj hget).symm
    · rw [hg] at hget; simp [GoMap.get, GoMap.empty] at hget
  have hres : o.getJournalIfModified E order [] =
      some ({ o with dirtyStateHash := E.sha256 (o.dirtyStateData
            (sort.Strings ((order.filter o.slotChanged).map Prod.fst)) []) },
        [] ++ (order.filter o.slotChanged).map o.slotOp,
        journalStates o.newEntry (o.prevStatesFrom (order.filter o.slotChanged) GoMap.empty)) := by
    rw [getJournalIfModified_slots_only E o order [] h1 h2 h3 h4,
      getStateJournalAndComputeHash_encoded E o order [] hperm hinv.2.1]
    rfl
  refine ⟨_, _, _, hres, ?_, ?_⟩
  · intro k p hget
    have hmem : (k, p) ∈ (o.prevStatesFrom (order.filter o.slotChanged) GoMap.empty).entries := by
      rw [← prevStatesOf_journalStates o]
      exact (GoMap.mem_entries_iff _ _ _).2 hget
    obtain ⟨key, hkey, hp⟩ := hgood (k, p) hmem
    simp only at hkey hp
    exact ⟨key, by rw [hkey, hex_decode_encode], hp⟩
  · intro K
    rw [revertSlots_eq, prevStatesOf_journalStates o]
    rcases revertSlots_get addr S _ hgood (S.commit ([] ++ (order.filter o.slotChanged).map o.slotOp)) K
      with ⟨h, _⟩ | ⟨h, hne⟩
    · exact h
    · rw [h]
      apply KV.get_commit_of_ne
      intro op hop
      rw [List.nil_append] at hop
      obtain ⟨e, he, rfl⟩ := List.mem_map.1 hop
      obtain ⟨key, hkey⟩ := (isEncoded_iff _).1 (hinv.2.1 e.1 (hsub e he))
      have he' : e = (hex.EncodeToString key, e.2) := by rw [← hkey]
      rw [he', slotOp_key_encoded, hA]
      rcases prevStatesFrom_get o (order.filter o.slotChanged) GoMap.empty e.1 with
        ⟨hg, _⟩ | ⟨_, hno⟩
      · have hin := (GoMap.mem_entries_iff _ _ _).2 hg
        exact fun hK => hne _ key hin hkey hK.symm
      · exact absurd rfl (hno e he)

/-- Witness of C4: over a store that holds slot `[0x10]`, that slot is overwritten and
slot `[0x02]` is written, then slot `[0x10]` is deleted. -/
theorem journal_restores_store_witness :
    ∃ o, (newAccount storeSlot.toStorage addr1).setStates
        [([0x10], some [0xBB]), ([0x02], some [0x02]), ([0x10], none)] = some o ∧
      ∃ o2 batch entry,
        o.getJournalIfModified exampleEnv o.dirtyState.entries [] = some (o2, batch, entry) ∧
        (∀ k p, (prevStatesOf entry).get k = some p →
          ∃ key, hex.DecodeString k = some key ∧ p = storeSlot.get (addr1.Bytes ++ key)) ∧
        (∀ K, (revertSlots addr1 entry (storeSlot.commit batch)).get K = storeSlot.get K) := by
  have hs : ((newAccount storeSlot.toStorage addr1).setStates
      [([0x10], some [0xBB]), ([0x02], some [0x02]), ([0x10], none)]).isSome = true := by decide
  obtain ⟨o, h⟩ := Option.isSome_iff_exists.1 hs
  exact ⟨o, h, journal_restores_store exampleEnv storeSlot addr1 _ o _ h (List.Perm.refl _)⟩

/-- C3, failing input: the account `accountWithCode` is only read (`GetBalance`,
`GetNonce`, `CodeHash` return 5, 1 and the advertised digest and leave it as it is, and
`GetState([0x10])` caches a miss); `getJournalIfModified` then adds `Delete` of the code
key to the batch and returns an entry with `code_changed` set and the stored code as
pre-image. -/
theorem readOnly_commit_deletes_code :
    (accountWithCode.GetBalance, accountWithCode.GetNonce) = (5, 1) ∧
    ((accountWithCode.GetState [0x10]).bind
      (fun r => (r.1.getJournalIfModified exampleEnv r.1.dirtyState.entries []).map
        (fun c => (r.1.dirtyState.entries, r.1.dirtyAccount, r.1.dirtyCode, c.2.1,
          c.2.2.map (fun j => (j.AccountChanged, j.CodeChanged, j.PrevCode)))))) =
      some ([], none, none, [BatchOp.Delete codeKey1], some (false, true, some [0x60, 0x60])) := by
  refine ⟨by decide, ?_⟩
  rfl

/-! ## Reads and the store -/

theorem GetStateTraced_result (o : Account) (key : List Byte) :
    (o.GetStateTraced key).1 = o.GetState key := by
  unfold Account.GetStateTraced Account.GetState
  simp only
  cases o.dirtyState.get (hex.EncodeToString key) with
  | some val => rfl
  | none =>
    cases o.originState.get (hex.EncodeToString key) with
    | some val => rfl
    | none => cases o.ldb.Get (o.Addr.Bytes ++ key) <;> rfl

theorem GetStateTraced_length (o : Account) (key : List Byte) :
    (o.GetStateTraced key).2.length ≤ 1 := by
  unfold Account.GetStateTraced
  simp only
  cases o.dirtyState.get (hex.EncodeToString key) with
  | some val => simp
  | none =>
    cases o.originState.get (hex.EncodeToString key) with
    | some val => simp
    | none => cases o.ldb.Get (o.Addr.Bytes ++ key) <;> simp

/-- C12: `GetState(key)` issues at most one `Get` against the store; when it returns, a
second `GetState(key)` returns the same result, leaves the account as it is and issues
no `Get`; and for a key that is not in `dirtyState` (never written through `SetState`)
the first call leaves the value it returned, or the nil absent marker, in `originState`,
whether the store hit or missed. -/
theorem GetState_twice (o : Account) (key : List Byte) :
    (o.GetStateTraced key).1 = o.GetState key ∧
    (o.GetStateTraced key).2.length ≤ 1 ∧
    ∀ o1 b v, o.GetState key = some (o1, b, v) →
      o1.GetStateTraced key = (some (o1, b, v), []) ∧
      (o.dirtyState.get (hex.EncodeToString key) = none →
        o1.originState.get (hex.EncodeToString key) = some v) := by
  refine ⟨GetStateTraced_result o key, GetStateTraced_length o key, ?_⟩
  intro o1 b v h
  obtain ⟨hb, hf, hcases⟩ := GetState_cases o o1 key b v h
  have hd : o1.dirtyState = o.dirtyState := by rw [hf]
  subst hb
  rcases hcases with ⟨ho, hdirty | ⟨hdn, horigin⟩⟩ | ⟨hdn, _, ho, _⟩
  · refine ⟨?_, ?_⟩
    · unfold Account.GetStateTraced
      simp only [hd, hdirty]
    · intro hn; rw [hdirty] at hn; cases hn
  · refine ⟨?_, ?_⟩
    · unfold Account.GetStateTraced
      simp only [hd, hdn, ho, horigin]
    · intro _; rw [ho]; exact horigin
  · refine ⟨?_, ?_⟩
    · unfold Account.GetStateTraced
      simp only [hd, hdn, ho, GoMap.get_set_self]
    · intro _; rw [ho]; exact GoMap.get_set_self _ _ _

/-- C16: `GetState(key)` panics if and only if the key is in neither `dirtyState` nor
`originState` and the store's `Get` returns an error other than `ErrNotFound`; when the
key is in neither map and `Get` returns `ErrNotFound`, the call returns `(false, nil)`,
stores the nil absent marker for the key in `originState` and changes nothing else. -/
theorem GetState_fatal_iff (o : Account) (key : List Byte) :
    (o.GetState key = none ↔
      (o.dirtyState.get (hex.EncodeToString key) = none ∧
        o.originState.get (hex.EncodeToString key) = none ∧
        o.ldb.Get (o.Addr.Bytes ++ key) = GetResult.fault)) ∧
    ((o.dirtyState.get (hex.EncodeToString key) = none ∧
        o.originState.get (hex.EncodeToString key) = none ∧
        o.ldb.Get (o.Addr.Bytes ++ key) = GetResult.notFound) →
      o.GetState key =
        some ({ o with originState := o.originState.set (hex.EncodeToString key) none },
          false, none)) := by
  unfold Account.GetState
  simp only
  cases hd : o.dirtyState.get (hex.EncodeToString key) with
  | some val => simp
  | none =>
    cases ho : o.originState.get (hex.EncodeToString key) with
    | some val => simp
    | none => cases hg : o.ldb.Get (o.Addr.Bytes ++ key) <;> simp

theorem CodeTraced_result (o : Account) : o.CodeTraced.1 = o.Code := by
  unfold Account.CodeTraced Account.Code
  split
  · rfl
  · split
    · rfl
    · split
      · rfl
      · cases o.ldb.Get (compositeKey codeKey o.Addr.Hex) <;> rfl

/-- C17: on an account with absent dirty and origin code, `Code()` calls `Get` on the
store only when the effective code hash is non-empty: when it is empty (in particular
when dirty and origin account are both absent) the call returns nil, issues no `Get` and
leaves the account as it is; when it is non-empty and the store has no entry under the
code key, the call returns nil and origin and dirty code remain absent. -/
theorem Code_without_code (o : Account) (hd : o.dirtyCode = none) (ho : o.originCode = none) :
    o.CodeTraced.1 = o.Code ∧
    (o.dirtyAccount = none ∧ o.originAccount = none → o.CodeHash.data = []) ∧
    (o.CodeHash.data = [] → o.CodeTraced = (some (o, none), [])) ∧
    (o.CodeHash.data ≠ [] →
      o.ldb.Get (compositeKey codeKey o.Addr.Hex) = GetResult.notFound →
      ∃ o1, o.Code = some (o1, none) ∧ o1.originCode = none ∧ o1.dirtyCode = none) := by
  refine ⟨CodeTraced_result o, ?_, ?_, ?_⟩
  · rintro ⟨h1, h2⟩
    simp [Account.CodeHash, h1, h2, GoBytes.data]
  · intro h
    have hE : bytes.Equal o.CodeHash none = true := by
      unfold bytes.Equal
      rw [h]
      rfl
    simp [Account.CodeTraced, hd, ho, hE]
  · intro h hg
    have hE : bytes.Equal o.CodeHash none = false := by
      simpa [bytes.Equal, GoBytes.data] using h
    exact ⟨{ o with originCode := none, dirtyCode := none },
      by simp [Account.Code, hd, ho, hE, hg], rfl, rfl⟩

/-- Witness of C17: a fresh account over the empty store, whose code hash is empty, and
the account `accountWithCode` moved over the empty store, whose advertised code is
missing. -/
theorem Code_without_code_witness :
    ((newAccount storeEmpty.toStorage addr1).dirtyCode = none ∧
      (newAccount storeEmpty.toStorage addr1).originCode = none ∧
      (newAccount storeEmpty.toStorage addr1).CodeTraced =
        (some (newAccount storeEmpty.toStorage addr1, none), [])) ∧
    ∃ o1, Account.Code { accountWithCode with ldb := storeEmpty.toStorage } = some (o1, none) ∧
      o1.originCode = none ∧ o1.dirtyCode = none :=
  ⟨⟨rfl, rfl, (Code_without_code (newAccount storeEmpty.toStorage addr1) rfl rfl).2.2.1 rfl⟩,
    (Code_without_code { accountWithCode with ldb := storeEmpty.toStorage } rfl rfl).2.2.2
      (by decide) rfl⟩

/-- C13: `SetNonce`, `SetBalance` and `SetCodeAndHash` leave `originAccount` as it is;
after `SetBalance(b)`, `GetBalance()` returns `b` while `GetNonce()` and `CodeHash()`
return what they returned before, and symmetrically for `SetNonce`; when the dirty record
was absent it is a copy of `originAccount`, or a zero record when that is absent too,
with the named field set. -/
theorem setters_keep_origin (E : Env) (o : Account) (n b : Nat) (c : GoBytes) :
    (o.SetNonce n).originAccount = o.originAccount ∧
    (o.SetBalance b).originAccount = o.originAccount ∧
    (o.SetCodeAndHash E c).originAccount = o.originAccount ∧
    ((o.SetBalance b).GetBalance = b ∧ (o.SetBalance b).GetNonce = o.GetNonce ∧
      (o.SetBalance b).CodeHash = o.CodeHash) ∧
    ((o.SetNonce n).GetNonce = n ∧ (o.SetNonce n).GetBalance = o.GetBalance ∧
      (o.SetNonce n).CodeHash = o.CodeHash) ∧
    (o.dirtyAccount = none →
      (o.SetBalance b).dirtyAccount =
          some { copyOrNewIfEmpty o.originAccount with Balance := b } ∧
        (o.SetNonce n).dirtyAccount =
          some { copyOrNewIfEmpty o.originAccount with Nonce := n } ∧
        (o.SetCodeAndHash E c).dirtyAccount =
          some { copyOrNewIfEmpty o.originAccount with CodeHash := some (E.sha256 c.data) }) ∧
    copyOrNewIfEmpty none = { Nonce := 0, Balance := 0, CodeHash := none } ∧
    (∀ a, copyOrNewIfEmpty (some a) = a) := by
  refine ⟨rfl, rfl, rfl, ?_, ?_, ?_, rfl, fun a => rfl⟩
  · cases hd : o.dirtyAccount with
    | some d => simp [Account.SetBalance, Account.GetBalance, Account.GetNonce, Account.CodeHash, hd]
    | none =>
      cases ho : o.originAccount <;>
        simp [Account.SetBalance, Account.GetBalance, Account.GetNonce, Account.CodeHash, hd, ho,
          copyOrNewIfEmpty]
  · cases hd : o.dirtyAccount with
    | some d => simp [Account.SetNonce, Account.GetBalance, Account.GetNonce, Account.CodeHash, hd]
    | none =>
      cases ho : o.originAccount <;>
        simp [Account.SetNonce, Account.GetBalance, Account.GetNonce, Account.CodeHash, hd, ho,
          copyOrNewIfEmpty]
  · intro hd
    simp [Account.SetBalance, Account.SetNonce, Account.SetCodeAndHash, hd]

/-! ## Key namespaces -/

theorem hex_encode_length (key : List Byte) :
    (hex.EncodeToString key).length = 2 * key.length := by
  induction key with
  | nil => rfl
  | cons v rest ih => simp only [hex.EncodeToString, List.length_cons, ih]; omega

/-- C11 (as amended): the account key of an address differs from the code key of any
address; and the storage key raw-bytes(A) ∥ s differs from the account key and from the
code key of every address B whenever s is not 22 bytes long or the first two bytes of A
are neither the text "a-" nor the text "c-". -/
theorem key_namespaces (A B : Address) (s : List Byte)
    (h : s.length ≠ 22 ∨ (A.Bytes.take 2 ≠ accountKey ∧ A.Bytes.take 2 ≠ codeKey)) :
    A.Bytes ++ s ≠ compositeKey accountKey B.Hex ∧
    A.Bytes ++ s ≠ compositeKey codeKey B.Hex ∧
    compositeKey accountKey A.Hex ≠ compositeKey codeKey B.Hex := by
  have hA : A.Bytes.length = 20 := A.len
  have hB : B.Hex.length = 40 := by
    unfold Address.Hex; rw [hex_encode_length, B.len]
  have htake : (A.Bytes ++ s).take 2 = A.Bytes.take 2 := by
    rw [List.take_append_of_le_length (by omega)]
  refine ⟨?_, ?_, ?_⟩
  · intro heq
    rcases h with h | ⟨h, _⟩
    · have := congrArg List.length heq
      simp only [compositeKey, List.length_append, hA, hB, accountKey, List.length_cons,
        List.length_nil] at this
      omega
    · apply h
      rw [← htake, heq]
      rfl
  · intro heq
    rcases h with h | ⟨_, h⟩
    · have := congrArg List.length heq
      simp only [compositeKey, List.length_append, hA, hB, codeKey, List.length_cons,
        List.length_nil] at this
      omega
    · apply h
      rw [← htake, heq]
      rfl
  · intro heq
    have := congrArg List.head? heq
    simp [compositeKey, accountKey, codeKey] at this

/-- Witness of C11 (as amended): the slot `[0x10]` of `addr1`. -/
theorem key_namespaces_witness :
    ([0x10] : List Byte).length ≠ 22 ∧
    addr1.Bytes ++ [0x10] ≠ compositeKey accountKey addr1.Hex ∧
    addr1.Bytes ++ [0x10] ≠ compositeKey codeKey addr1.Hex ∧
    compositeKey accountKey addr1.Hex ≠ compositeKey codeKey addr1.Hex :=
  ⟨by decide, key_namespaces addr1 addr1 [0x10] (Or.inl (by decide))⟩

/-- C11, counterexample: the address whose raw bytes are the text "a-000000000000000000"
and the slot key "0000000000000000000001" give a storage key equal to the account key
of the address `0x00…01`. -/
theorem storage_key_is_account_key :
    addrMarker.Bytes ++ slotText = compositeKey accountKey addr1.Hex := by
  decide

/-! ## The value of the dirty-state hash -/

theorem dirtyStateData_eq (o : Account) (keys : List GoString) (acc : List Byte) :
    o.dirtyStateData keys acc = acc ++ o.hashInput keys := by
  induction keys generalizing acc with
  | nil => simp [Account.dirtyStateData, Account.hashInput]
  | cons k rest ih =>
    simp only [Account.dirtyStateData, Account.hashInput, ih, List.append_assoc]

/-- C15: `getStateJournalAndComputeHash` sets `dirtyStateHash` to the SHA-256 digest of
`k1 ∥ v1 ∥ k2 ∥ v2 ∥ ...` where `k1 < k2 < ...` are, in ascending byte order of their
hex-string form, exactly the keys whose dirty value differs from the origin value, and
each `vi` is the dirty value; when no slot changed it is the digest of the empty
string. -/
theorem dirtyStateHash_value (E : Env) (o : Account) (order : List (GoString × GoBytes))
    (batch : Batch) (hperm : order.Perm o.dirtyState.entries) (hkeys : o.dirtyKeysEncoded) :
    ∃ o1 batch1 prev keys,
      o.getStateJournalAndComputeHash E order batch = some (o1, batch1, prev) ∧
      keys.Pairwise (fun a b => bytesLess a b = true) ∧
      (∀ k, k ∈ keys ↔
        ∃ v, o.dirtyState.get k = some v ∧ bytes.Equal (o.originState.index k) v = false) ∧
      o1.dirtyStateHash = E.sha256 (o.hashInput keys) ∧
      ((∀ k v, o.dirtyState.get k = some v → bytes.Equal (o.originState.index k) v = true) →
        o1.dirtyStateHash = E.sha256 []) := by
  have hres := getStateJournalAndComputeHash_encoded E o order batch hperm hkeys
  have hmem : ∀ k, k ∈ sort.Strings ((order.filter o.slotChanged).map Prod.fst) ↔
      ∃ v, o.dirtyState.get k = some v ∧ bytes.Equal (o.originState.index k) v = false := by
    intro k
    rw [(sortStrings_perm _).mem_iff, List.mem_map]
    constructor
    · rintro ⟨⟨k', v⟩, he, rfl⟩
      rw [List.mem_filter] at he
      refine ⟨v, (GoMap.mem_entries_iff _ _ _).1 (hperm.subset he.1), ?_⟩
      simpa [Account.slotChanged] using he.2
    · rintro ⟨v, hget, hch⟩
      refine ⟨(k, v), ?_, rfl⟩
      rw [List.mem_filter]
      exact ⟨hperm.symm.subset ((GoMap.mem_entries_iff _ _ _).2 hget),
        by simp [Account.slotChanged, hch]⟩
  have hnd : (sort.Strings ((order.filter o.slotChanged).map Prod.fst)).Nodup := by
    rw [(sortStrings_perm _).nodup_iff]
    have h1 : (order.map Prod.fst).Nodup := (hperm.map Prod.fst).nodup_iff.2 o.dirtyState.nodup
    exact h1.sublist ((List.filter_sublist _).map _)
  have hstrict : (sort.Strings ((order.filter o.slotChanged).map Prod.fst)).Pairwise
      (fun a b => bytesLess a b = true) := by
    refine ((sortStrings_sorted _).and hnd).imp ?_
    rintro a b ⟨hle, hne⟩
    cases hab : bytesLess a b with
    | true => rfl
    | false => exact absurd (bytesLess_antisymm a b hab hle) hne
  refine ⟨_, _, _, sort.Strings ((order.filter o.slotChanged).map Prod.fst), hres, hstrict,
    hmem, ?_, ?_⟩
  · show E.sha256 _ = E.sha256 _
    rw [dirtyStateData_eq, List.nil_append]
  · intro hall
    show E.sha256 _ = E.sha256 _
    have hnil : sort.Strings ((order.filter o.slotChanged).map Prod.fst) = [] := by
      apply List.eq_nil_iff_forall_not_mem.2
      intro k hk
      obtain ⟨v, hget, hch⟩ := (hmem k).1 hk
      rw [hall k v hget] at hch
      cases hch
    rw [hnil]
    rfl

/-- Witness of C15: the account that overwrites slot `[0x10]`. -/
theorem dirtyStateHash_value_witness :
    accountSlot.dirtyState.entries.Perm accountSlot.dirtyState.entries ∧
    accountSlot.dirtyKeysEncoded ∧
    ∃ o1 batch1 prev keys,
      accountSlot.getStateJournalAndComputeHash exampleEnv accountSlot.dirtyState.entries [] =
        some (o1, batch1, prev) ∧
      keys.Pairwise (fun a b => bytesLess a b = true) ∧
      (∀ k, k ∈ keys ↔
        ∃ v, accountSlot.dirtyState.get k = some v ∧
          bytes.Equal (accountSlot.originState.index k) v = false) ∧
      o1.dirtyStateHash = exampleEnv.sha256 (accountSlot.hashInput keys) ∧
      ((∀ k v, accountSlot.dirtyState.get k = some v →
          bytes.Equal (accountSlot.originState.index k) v = true) →
        o1.dirtyStateHash = exampleEnv.sha256 []) :=
  ⟨List.Perm.refl _, accountSlot_dirtyKeysEncoded,
    dirtyStateHash_value exampleEnv accountSlot accountSlot.dirtyState.entries []
      (List.Perm.refl _) accountSlot_dirtyKeysEncoded⟩

/-! ## Commit after a read-through of the code -/

theorem codeSynced_of_eq (o o1 : Account) (h1 : o1.originCode = o.originCode)
    (h2 : o1.dirtyCode = o.dirtyCode) (h3 : o1.ldb = o.ldb) (h4 : o1.Addr = o.Addr)
    (h : o.codeSynced) : o1.codeSynced := by
  unfold Account.codeSynced at *
  rw [h1, h2, h3, h4]
  exact h

theorem Code_readThrough_codeSynced (o o1 : Account) (c : GoBytes)
    (hd : o.dirtyCode = none) (ho : o.originCode = none) (hh : o.CodeHash.data ≠ [])
    (h : o.Code = some (o1, c)) : o1.codeSynced := by
  have hE : bytes.Equal o.CodeHash none = false := by
    simpa [bytes.Equal, GoBytes.data] using hh
  unfold Account.Code at h
  simp only [hd, ho, hE, Option.isSome_none, Bool.false_eq_true, if_false] at h
  cases hg : o.ldb.Get (compositeKey codeKey o.Addr.Hex) with
  | fault => rw [hg] at h; simp at h
  | notFound =>
    rw [hg] at h
    simp only [Option.some.injEq, Prod.mk.injEq] at h
    rw [← h.1]
    exact ⟨rfl, fun _ => Or.inl hg⟩
  | ok code =>
    rw [hg] at h
    simp only [Option.some.injEq, Prod.mk.injEq] at h
    rw [← h.1]
    refine ⟨rfl, fun hn => Or.inr ?_⟩
    simp only at hn
    rw [hg, hn]

theorem Code_codeSynced (o o1 : Account) (c : GoBytes) (hs : o.codeSynced)
    (h : o.Code = some (o1, c)) : o1.codeSynced := by
  unfold Account.Code at h
  split at h
  · simp only [Option.some.injEq, Prod.mk.injEq] at h; rw [← h.1]; exact hs
  · split at h
    · simp only [Option.some.injEq, Prod.mk.injEq] at h; rw [← h.1]; exact hs
    · split at h
      · simp only [Option.some.injEq, Prod.mk.injEq] at h; rw [← h.1]; exact hs
      · rename_i _ hon _
        have ho : o.originCode = none := by
          cases hoc : o.originCode with
          | none => rfl
          | some x => rw [hoc] at hon; simp at hon
        split at h
        · simp at h
        · rename_i hg
          simp only [Option.some.injEq, Prod.mk.injEq] at h
          rw [← h.1]
          exact ⟨rfl, fun _ => Or.inl hg⟩
        · rename_i code hg
          simp only [Option.some.injEq, Prod.mk.injEq] at h
          rw [← h.1]
          refine ⟨rfl, fun hn => Or.inr ?_⟩
          simp only at hn
          rw [hg, hn]

theorem loadOriginCode_codeSynced (o o1 : Account) (hs : o.codeSynced)
    (h : o.loadOriginCode = some o1) : o1 = o := by
  unfold Account.loadOriginCode at h
  split at h
  · rename_i hc
    have ho : o.originCode = none := by
      cases hoc : o.originCode with
      | none => rfl
      | some x => rw [hoc] at hc; simp at hc
    rcases hs.2 ho with hg | hg
    · rw [hg] at h
      simp only [Option.some.injEq] at h
      rw [← h, ← ho]
    · rw [hg] at h
      simp only [Option.some.injEq] at h
      rw [← h, ← ho]
  · simp only [Option.some.injEq] at h
    exact h.symm

theorem call_codeSynced (E : Env) (o o1 : Account) (c : Call)
    (hc : c.isSetCodeAndHash = false) (h : o.call E c = some o1) (hs : o.codeSynced) :
    o1.codeSynced := by
  cases c with
  | GetState key =>
    simp only [Account.call, Option.map_eq_some'] at h
    obtain ⟨⟨o', b, v⟩, hg, rfl⟩ := h
    obtain ⟨_, hf, _⟩ := GetState_cases o o' key b v hg
    exact codeSynced_of_eq o o' (by rw [hf]) (by rw [hf]) (by rw [hf]) (by rw [hf]) hs
  | SetState key value =>
    simp only [Account.call] at h
    obtain ⟨o', b, v, hg, rfl⟩ := SetState_cases o o1 key value h
    obtain ⟨_, hf, _⟩ := GetState_cases o o' key b v hg
    exact codeSynced_of_eq o _ (by rw [hf]) (by rw [hf]) (by rw [hf]) (by rw [hf]) hs
  | SetCodeAndHash code => simp [Call.isSetCodeAndHash] at hc
  | Code =>
    simp only [Account.call, Option.map_eq_some'] at h
    obtain ⟨⟨o', c⟩, hg, rfl⟩ := h
    exact Code_codeSynced o o' c hs hg
  | SetNonce n =>
    simp only [Account.call, Option.some.injEq] at h
    subst h; exact hs
  | SetBalance n =>
    simp only [Account.call, Option.some.injEq] at h
    subst h; exact hs
  | getJournalIfModified order b =>
    simp only [Account.call, Option.map_eq_some'] at h
    obtain ⟨⟨o', b', j⟩, hg, rfl⟩ := h
    obtain ⟨b1, e1, o2, prev, _, hl, hst, _⟩ := getJournalIfModified_inv E o o' order b b' j hg
    have h2 := loadOriginCode_codeSynced o o2 hs hl
    subst h2
    have hf := getStateJournalAndComputeHash_frame E o2 o' order _ b' prev hst
    exact codeSynced_of_eq o2 o' (by rw [hf]) (by rw [hf]) (by rw [hf]) (by rw [hf]) hs

theorem calls_codeSynced (E : Env) (cs : List Call) (o o1 : Account)
    (hcs : ∀ c, c ∈ cs → c.isSetCodeAndHash = false)
    (h : o.calls E cs = some o1) (hs : o.codeSynced) : o1.codeSynced := by
  induction cs generalizing o with
  | nil =>
    simp only [Account.calls, Option.some.injEq] at h
    subst h; exact hs
  | cons c rest ih =>
    simp only [Account.calls] at h
    cases hc : o.call E c with
    | none => rw [hc] at h; simp at h
    | some o' =>
      rw [hc] at h
      exact ih o' (fun c' h' => hcs c' (List.mem_cons_of_mem _ h')) h
        (call_codeSynced E o o' c (hcs c (List.mem_cons_self _ _)) hc hs)

theorem journalAccount_codeChanged (E : Env) (o : Account) (b b1 : Batch) (e e1 : journal)
    (h : o.journalAccount E b e = some (b1, e1)) :
    e1.CodeChanged = e.CodeChanged ∧ e1.PrevStates = e.PrevStates ∧
    ∃ metadata, b1 = b ++ metadata ∧
      (metadata = [] ∨ ∃ d data, o.dirtyAccount = some d ∧ d.Marshal E = some data ∧
        metadata = [BatchOp.Put (compositeKey accountKey o.Addr.Hex) (some data)]) := by
  unfold Account.journalAccount at h
  split at h
  · split at h
    · simp at h
    · rename_i d hd
      split at h
      · simp at h
      · rename_i data hm
        simp only [Option.some.injEq, Prod.mk.injEq] at h
        rw [← h.2]
        exact ⟨rfl, rfl, _, h.1.symm, Or.inr ⟨d, data, hd, hm, rfl⟩⟩
  · simp only [Option.some.injEq, Prod.mk.injEq] at h
    rw [← h.2]
    exact ⟨rfl, rfl, [], by simp [h.1], Or.inl rfl⟩

theorem journalStates_codeChanged (entry e : journal) (prev : GoMap)
    (h : journalStates entry prev = some e) : e.CodeChanged = entry.CodeChanged := by
  unfold journalStates at h
  simp only at h
  split_ifs at h <;> simp only [Option.some.injEq] at h <;> rw [← h]

theorem slotOp_key (o : Account) (e : GoString × GoBytes) :
    (o.slotOp e).key = o.Addr.Bytes ++ (hex.DecodeString e.1).getD [] := by
  unfold Account.slotOp
  split <;> rfl

theorem slot_key_ne_code_key (A B : Address) (s : List Byte)
    (h : A.Bytes.take 2 ≠ codeKey) : A.Bytes ++ s ≠ compositeKey codeKey B.Hex := by
  intro heq
  apply h
  have hA : A.Bytes.length = 20 := A.len
  have htake : (A.Bytes ++ s).take 2 = A.Bytes.take 2 := by
    rw [List.take_append_of_le_length (by omega)]
  rw [← htake, heq]
  rfl

theorem account_key_ne_code_key (A B : Address) :
    compositeKey accountKey A.Hex ≠ compositeKey codeKey B.Hex := by
  intro heq
  have := congrArg List.head? heq
  simp [compositeKey, accountKey, codeKey] at this

/-- C19 (as amended): when `Code()` has read through to the store (dirty and origin code
absent, the effective code hash non-empty, as on an account whose origin record
advertises a code hash) and no `SetCodeAndHash` is called afterwards,
`getJournalIfModified` returns an entry, if any, with `code_changed` false and its code
step adds neither a Put nor a Delete: the batch receives only the metadata Put (if any)
and the slot operations, whether the store holds code under the code key or not; and
none of the operations it receives is on the code key when the first two raw bytes of the
address are not the text "c-". -/
theorem code_unchanged_after_read (E : Env) (o o1 o2 o3 : Account) (c : GoBytes)
    (cs : List Call) (order : List (GoString × GoBytes)) (b b3 : Batch) (j : Option journal)
    (hd : o.dirtyCode = none) (ho : o.originCode = none) (hh : o.CodeHash.data ≠ [])
    (hcode : o.Code = some (o1, c))
    (hcs : ∀ call, call ∈ cs → call.isSetCodeAndHash = false)
    (hrun : o1.calls E cs = some o2)
    (hcommit : o2.getJournalIfModified E order b = some (o3, b3, j)) :
    (∀ e, j = some e → e.CodeChanged = false) ∧
    ∃ metadata,
      b3 = b ++ metadata ++ (order.filter o2.slotChanged).map o2.slotOp ∧
      (metadata = [] ∨ ∃ d data, o2.dirtyAccount = some d ∧ d.Marshal E = some data ∧
        metadata = [BatchOp.Put (compositeKey accountKey o2.Addr.Hex) (some data)]) ∧
      (o2.Addr.Bytes.take 2 ≠ codeKey →
        ∀ op, op ∈ metadata ++ (order.filter o2.slotChanged).map o2.slotOp →
          op.key ≠ compositeKey codeKey o2.Addr.Hex) := by
  have hs : o2.codeSynced :=
    calls_codeSynced E cs o1 o2 hcs hrun (Code_readThrough_codeSynced o o1 c hd ho hh hcode)
  obtain ⟨b1, e1, o', prev, ha, hl, hst, hj⟩ :=
    getJournalIfModified_inv E o2 o3 order b b3 j hcommit
  have h2 := loadOriginCode_codeSynced o2 o' hs hl
  subst h2
  obtain ⟨hcc, _, metadata, rfl, hmeta⟩ := journalAccount_codeChanged E o' b b1 _ e1 ha
  have hjc : o'.journalCode (b ++ metadata) e1 = (b ++ metadata, e1) := by
    unfold Account.journalCode
    have hE : bytes.Equal o'.originCode o'.dirtyCode = true := by
      rw [hs.1]; simp [bytes.Equal]
    simp [hE]
  rw [hjc] at hst hj
  refine ⟨?_, metadata, ?_, hmeta, ?_⟩
  · intro e he
    rw [he] at hj
    rw [journalStates_codeChanged e1 e prev hj.symm, hcc]
    rfl
  · rw [getStateJournalAndComputeHash_eq] at hst
    split at hst
    · simp only [Option.some.injEq, Prod.mk.injEq] at hst
      exact hst.2.1.symm
    · simp at hst
  · intro hA op hop
    rcases List.mem_append.1 hop with hm | hm
    · rcases hmeta with rfl | ⟨d, data, _, _, rfl⟩
      · simp at hm
      · rw [List.mem_singleton] at hm
        rw [hm]
        exact account_key_ne_code_key o'.Addr o'.Addr
    · obtain ⟨e, _, rfl⟩ := List.mem_map.1 hm
      rw [slotOp_key]
      exact slot_key_ne_code_key o'.Addr o'.Addr _ hA

/-- Witness of C19 (as amended): `accountWithCode` reads its code through, then a slot is
read, the balance is set and the code is read again before the commit. -/
theorem code_unchanged_after_read_witness :
    accountWithCode.dirtyCode = none ∧ accountWithCode.originCode = none ∧
    accountWithCode.CodeHash.data ≠ [] ∧
    ∃ o1 c o2 o3 b3 j,
      accountWithCode.Code = some (o1, c) ∧
      o1.calls exampleEnv [Call.GetState [0x10], Call.SetBalance 7, Call.Code] = some o2 ∧
      o2.getJournalIfModified exampleEnv o2.dirtyState.entries [] = some (o3, b3, j) ∧
      (∀ e, j = some e → e.CodeChanged = false) ∧
      ∃ metadata,
        b3 = [] ++ metadata ++ (o2.dirtyState.entries.filter o2.slotChanged).map o2.slotOp ∧
        (metadata = [] ∨ ∃ d data, o2.dirtyAccount = some d ∧ d.Marshal exampleEnv = some data ∧
          metadata = [BatchOp.Put (compositeKey accountKey o2.Addr.Hex) (some data)]) ∧
        (o2.Addr.Bytes.take 2 ≠ codeKey →
          ∀ op, op ∈ metadata ++ (o2.dirtyState.entries.filter o2.slotChanged).map o2.slotOp →
            op.key ≠ compositeKey codeKey o2.Addr.Hex) := by
  have hh : accountWithCode.CodeHash.data ≠ [] := by decide
  have h1 : accountWithCode.Code.isSome = true := by decide
  obtain ⟨⟨o1, c⟩, hcode⟩ := Option.isSome_iff_exists.1 h1
  have h2 : (accountWithCode.Code.bind (fun r =>
      r.1.calls exampleEnv [Call.GetState [0x10], Call.SetBalance 7, Call.Code])).isSome = true := by
    decide
  rw [hcode] at h2
  obtain ⟨o2, hrun⟩ := Option.isSome_iff_exists.1 h2
  have h3 : ((accountWithCode.Code.bind (fun r =>
      r.1.calls exampleEnv [Call.GetState [0x10], Call.SetBalance 7, Call.Code])).bind
      (fun o => o.getJournalIfModified exampleEnv o.dirtyState.entries [])).isSome = true := by
    decide
  rw [hcode] at h3
  have hrun' : (some (o1, c) : Option (Account × GoBytes)).bind (fun r =>
      r.1.calls exampleEnv [Call.GetState [0x10], Call.SetBalance 7, Call.Code]) = some o2 := hrun
  rw [hrun'] at h3
  obtain ⟨⟨o3, b3, j⟩, hcommit⟩ := Option.isSome_iff_exists.1 h3
  have hcs : ∀ call, call ∈ [Call.GetState [0x10], Call.SetBalance 7, Call.Code] →
      call.isSetCodeAndHash = false := by
    intro call hc
    simp only [List.mem_cons, List.mem_singleton, List.not_mem_nil, or_false] at hc
    rcases hc with rfl | rfl | rfl <;> rfl
  exact ⟨rfl, rfl, hh, o1, c, o2, o3, b3, j, hcode, hrun, hcommit,
    code_unchanged_after_read exampleEnv accountWithCode o1 o2 o3 c _ _ [] b3 j rfl rfl hh
      hcode hcs hrun hcommit⟩

/-- C19, counterexample: the raw bytes of the address `addrCodeText` followed by the slot
key `slotCodeText` are the code key of that address.  The account advertises a code hash
and the store holds its code; `Code()` reads it through, `SetState(slotCodeText, [0x01])`
follows and `SetCodeAndHash` is never called: `getJournalIfModified` returns an entry
with `code_changed` false and adds a Put on the code key. -/
theorem code_key_written_by_slot :
    addrCodeText.Bytes ++ slotCodeText = compositeKey codeKey addrCodeText.Hex ∧
    (accountCodeText.Code.bind (fun r =>
      (r.1.SetState slotCodeText (some [0x01])).bind (fun o =>
        (o.getJournalIfModified exampleEnv o.dirtyState.entries []).map (fun c =>
          (r.2, c.2.1, c.2.2.map (fun j => j.CodeChanged)))))) =
      some (some [0x60, 0x60],
        [BatchOp.Put (compositeKey codeKey addrCodeText.Hex) (some [0x01])], some false) := by
  refine ⟨by decide, ?_⟩
  rfl

/-! ## Decimal numbers -/

theorem digitsValue_append (init : Nat) (l1 l2 : List Byte) :
    digitsValue init (l1 ++ l2) = digitsValue (digitsValue init l1) l2 := by
  unfold digitsValue
  rw [List.foldl_append]

theorem digit_byte (n : Nat) :
    ((Fin.ofNat (48 + n % 10) : Byte)).val = 48 + n % 10 := by
  show (48 + n % 10) % 256 = 48 + n % 10
  omega

theorem formatUintCore_spec (fuel n : Nat) (acc : List Byte) (h : n < fuel) :
    ∃ ds, formatUintCore fuel n acc = ds ++ acc ∧ ds.all isDigit = true ∧
      digitsValue 0 ds = n ∧ ds ≠ [] ∧ (ds.head? = some 48 → ds = [48]) := by
  induction fuel generalizing n acc with
  | zero => omega
  | succ fuel ih =>
    have hd := digit_byte n
    have hdig : isDigit (Fin.ofNat (48 + n % 10)) = true := by
      unfold isDigit
      rw [hd]
      simp only [Bool.and_eq_true, decide_eq_true_eq]
      omega
    unfold formatUintCore
    by_cases h0 : n / 10 = 0
    · simp only [h0, if_true]
      refine ⟨[Fin.ofNat (48 + n % 10)], rfl, by simp [hdig], ?_, by simp, fun _ => ?_⟩
      · simp only [digitsValue, List.foldl_cons, List.foldl_nil, hd]
        omega
      · rename_i hh
        simp only [List.head?_cons, Option.some.injEq] at hh
        have h2 : 48 + n % 10 = 48 := by
          have h3 := congrArg Fin.val hh
          rw [hd] at h3
          exact h3
        have h4 : n % 10 = 0 := by omega
        rw [h4]
        rfl
    · simp only [h0, if_false]
      obtain ⟨ds, hds, hall, hval, hne, hhead⟩ :=
        ih (n / 10) (Fin.ofNat (48 + n % 10) :: acc) (by omega)
      refine ⟨ds ++ [Fin.ofNat (48 + n % 10)], by rw [hds]; simp, ?_, ?_, by simp, ?_⟩
      · rw [List.all_append, hall]; simp [hdig]
      · rw [digitsValue_append, hval]
        simp only [digitsValue, List.foldl_cons, List.foldl_nil, hd]
        omega
      · intro hh
        exfalso
        have h1 : ds.head? = some 48 := by
          cases ds with
          | nil => exact absurd rfl hne
          | cons d ds' => simpa using hh
        have h2 := hhead h1
        rw [h2] at hval
        simp [digitsValue] at hval
        omega

theorem parseUint_formatUint (n : Nat) (h : n < 2 ^ 64) : parseUint (formatUint n) = some n := by
  obtain ⟨ds, hds, hall, hval, hne, hhead⟩ := formatUintCore_spec (n + 1) n [] (by omega)
  rw [List.append_nil] at hds
  unfold formatUint
  rw [hds]
  cases ds with
  | nil => exact absurd rfl hne
  | cons c rest =>
    unfold parseUint
    have hlead : (decide (c.val ≠ 48) || rest.isEmpty) = true := by
      by_cases hc : c.val = 48
      · have hc' : c = 48 := Fin.ext hc
        have := hhead (by rw [hc']; rfl)
        simp only [List.cons.injEq] at this
        rw [this.2]
        simp
      · simp [hc]
    have hlt : decide (digitsValue 0 (c :: rest) < 2 ^ 64) = true := by
      rw [hval]; exact decide_eq_true h
    show (if ((c :: rest).all isDigit && (decide (c.val ≠ 48) || rest.isEmpty) &&
        decide (digitsValue 0 (c :: rest) < 2 ^ 64)) = true then
        some (digitsValue 0 (c :: rest)) else none) = some n
    rw [hall, hlead, hlt, hval]
    rfl

theorem formatUint_digits (n : Nat) : ∀ c, c ∈ formatUint n → isDigit c = true := by
  obtain ⟨ds, hds, hall, _⟩ := formatUintCore_spec (n + 1) n [] (by omega)
  rw [List.append_nil] at hds
  unfold formatUint
  rw [hds]
  exact List.all_eq_true.1 hall

/-! ## Base64 -/

theorem base64Value_char (n : Fin 64) : base64Value (base64Char n.val) = some n.val := by
  revert n; decide

theorem base64Char_ne (n : Fin 64) : base64Char n.val ≠ 61 ∧ base64Char n.val ≠ 34 := by
  revert n; decide

theorem base64Value_char' (n : Nat) (h : n < 64) : base64Value (base64Char n) = some n :=
  base64Value_char ⟨n, h⟩

theorem base64Char_ne_pad (n : Nat) (h : n < 64) : base64Char n ≠ 61 :=
  (base64Char_ne ⟨n, h⟩).1

theorem base64Char_ne_quote (n : Nat) (h : n < 64) : base64Char n ≠ 34 :=
  (base64Char_ne ⟨n, h⟩).2

theorem base64Decode_encode : ∀ h : List Byte, base64Decode (base64Encode h) = some h
  | [] => rfl
  | [a] => by
    have ha := a.isLt
    simp only [base64Encode, base64Decode, true_and, and_self, if_true,
      base64Value_char' (a.val / 4) (by omega), base64Value_char' (a.val % 4 * 16) (by omega)]
    congr 2
    apply Fin.ext
    show (a.val / 4 * 4 + a.val % 4 * 16 / 16) % 256 = a.val
    omega
  | [a, b] => by
    have ha := a.isLt
    have hb := b.isLt
    have hne := base64Char_ne_pad (b.val % 16 * 4) (by omega)
    simp only [base64Encode, base64Decode, true_and, and_true, hne, false_and, if_false, if_true,
      base64Value_char' (a.val / 4) (by omega),
      base64Value_char' (a.val % 4 * 16 + b.val / 16) (by omega),
      base64Value_char' (b.val % 16 * 4) (by omega)]
    congr 2
    · apply Fin.ext
      show (a.val / 4 * 4 + (a.val % 4 * 16 + b.val / 16) / 16) % 256 = a.val
      omega
    · congr 1
      apply Fin.ext
      show ((a.val % 4 * 16 + b.val / 16) % 16 * 16 + b.val % 16 * 4 / 4) % 256 = b.val
      omega
  | a :: b :: c :: rest => by
    have ha := a.isLt
    have hb := b.isLt
    have hc := c.isLt
    have hne3 := base64Char_ne_pad (b.val % 16 * 4 + c.val / 64) (by omega)
    have hne4 := base64Char_ne_pad (c.val % 64) (by omega)
    have ih := base64Decode_encode rest
    simp only [base64Encode, base64Decode, hne3, hne4, false_and, and_false, if_false,
      base64Value_char' (a.val / 4) (by omega),
      base64Value_char' (a.val % 4 * 16 + b.val / 16) (by omega),
      base64Value_char' (b.val % 16 * 4 + c.val / 64) (by omega),
      base64Value_char' (c.val % 64) (by omega), ih]
    have h1 : (Fin.ofNat (a.val / 4 * 4 + (a.val % 4 * 16 + b.val / 16) / 16) : Byte) = a := by
      apply Fin.ext
      show (a.val / 4 * 4 + (a.val % 4 * 16 + b.val / 16) / 16) % 256 = a.val
      omega
    have h2 : (Fin.ofNat ((a.val % 4 * 16 + b.val / 16) % 16 * 16 +
        (b.val % 16 * 4 + c.val / 64) / 4) : Byte) = b := by
      apply Fin.ext
      show ((a.val % 4 * 16 + b.val / 16) % 16 * 16 + (b.val % 16 * 4 + c.val / 64) / 4) % 256
        = b.val
      omega
    have h3 : (Fin.ofNat ((b.val % 16 * 4 + c.val / 64) % 4 * 64 + c.val % 64) : Byte) = c := by
      apply Fin.ext
      show ((b.val % 16 * 4 + c.val / 64) % 4 * 64 + c.val % 64) % 256 = c.val
      omega
    rw [h1, h2, h3]

theorem base64Encode_no_quote : ∀ h : List Byte, ∀ c, c ∈ base64Encode h → (c != 34) = true
  | [] => by intro c hc; simp [base64Encode] at hc
  | [a] => by
    have ha := a.isLt
    intro c hc
    simp only [base64Encode, List.mem_cons, List.mem_singleton, List.not_mem_nil, or_false] at hc
    rcases hc with rfl | rfl | rfl | rfl
    · simpa using base64Char_ne_quote _ (by omega)
    · simpa using base64Char_ne_quote _ (by omega)
    · decide
    · decide
  | [a, b] => by
    have ha := a.isLt
    have hb := b.isLt
    intro c hc
    simp only [base64Encode, List.mem_cons, List.mem_singleton, List.not_mem_nil, or_false] at hc
    rcases hc with rfl | rfl | rfl | rfl
    · simpa using base64Char_ne_quote _ (by omega)
    · simpa using base64Char_ne_quote _ (by omega)
    · simpa using base64Char_ne_quote _ (by omega)
    · decide
  | a :: b :: c :: rest => by
    have ha := a.isLt
    have hb := b.isLt
    have hc := c.isLt
    have ih := base64Encode_no_quote rest
    intro x hx
    simp only [base64Encode, List.mem_cons] at hx
    rcases hx with rfl | rfl | rfl | rfl | hx
    · simpa using base64Char_ne_quote _ (by omega)
    · simpa using base64Char_ne_quote _ (by omega)
    · simpa using base64Char_ne_quote _ (by omega)
    · simpa using base64Char_ne_quote _ (by omega)
    · exact ih x hx

/-! ## Round trip of the record encoding -/

theorem dropText_append (p s : List Byte) : dropText p (p ++ s) = some s := by
  unfold dropText
  have h : p.isPrefixOf (p ++ s) = true := by
    rw [List.isPrefixOf_iff_prefix]; exact List.prefix_append p s
  rw [h, if_pos rfl, List.drop_left]

theorem takeWhile_stop (p : Byte → Bool) (l : List Byte) (t : Byte) (s : List Byte)
    (hl : ∀ c, c ∈ l → p c = true) (ht : p t = false) :
    (l ++ t :: s).takeWhile p = l ∧ (l ++ t :: s).dropWhile p = t :: s := by
  have ht' : ¬ p t = true := by rw [ht]; simp
  constructor
  · rw [List.takeWhile_append_of_pos hl, List.takeWhile_cons_of_neg ht', List.append_nil]
  · rw [List.dropWhile_append_of_pos hl, List.dropWhile_cons_of_neg ht']

theorem parse_number (n : Nat) (hn : n < 2 ^ 64) (p rest : List Byte) (t : Byte)
    (ts : List Byte) (hp : p = t :: ts) (ht : isDigit t = false) :
    parseUint ((formatUint n ++ (p ++ rest)).takeWhile isDigit) = some n ∧
    dropText p ((formatUint n ++ (p ++ rest)).dropWhile isDigit) = some rest := by
  subst hp
  obtain ⟨h1, h2⟩ := takeWhile_stop isDigit (formatUint n) t (ts ++ rest) (formatUint_digits n) ht
  rw [List.cons_append, h1, h2, parseUint_formatUint n hn]
  exact ⟨rfl, dropText_append (t :: ts) rest⟩

theorem json_Unmarshal_numbers (n b : Nat) (hn : n < 2 ^ 64) (hb : b < 2 ^ 64)
    (tail : List Byte) (z : innerAccount) :
    json.Unmarshal (textNonce ++ (formatUint n ++ (textBalance ++ (formatUint b ++
        (textCodeHash ++ tail))))) z =
      if tail = textNull ++ [125] then some { Nonce := n, Balance := b, CodeHash := none }
      else
        match dropText [34] tail with
        | none => none
        | some s4 =>
          if s4.dropWhile (fun c => c != 34) = [34, 125] then
            match base64Decode (s4.takeWhile (fun c => c != 34)) with
            | some h => some { Nonce := n, Balance := b, CodeHash := some h }
            | none => none
          else none := by
  obtain ⟨hp1, hd1⟩ := parse_number n hn textBalance
    (formatUint b ++ (textCodeHash ++ tail)) 44 _ rfl (by decide)
  obtain ⟨hp2, hd2⟩ := parse_number b hb textCodeHash tail 44 _ rfl (by decide)
  unfold json.Unmarshal
  rw [dropText_append]
  simp only
  rw [hp1, hd1]
  simp only
  rw [hp2, hd2]

theorem json_roundtrip (r z : innerAccount) (hn : r.Nonce < 2 ^ 64) (hb : r.Balance < 2 ^ 64) :
    ∃ data, json.Marshal r = some data ∧ json.Unmarshal data z = some r := by
  obtain ⟨nonce, balance, codeHash⟩ := r
  simp only at hn hb
  refine ⟨_, rfl, ?_⟩
  simp only [List.append_assoc]
  rw [json_Unmarshal_numbers nonce balance hn hb]
  cases codeHash with
  | none => simp
  | some h =>
    have happ : [34] ++ (base64Encode h ++ [34]) ++ [125] =
        [34] ++ (base64Encode h ++ 34 :: [125]) := by simp
    have hne : ¬ ([34] ++ (base64Encode h ++ 34 :: [125]) = textNull ++ [125]) := by
      simp [textNull]
    obtain ⟨h1, h2⟩ := takeWhile_stop (fun c => c != 34) (base64Encode h) 34 [125]
      (base64Encode_no_quote h) (by decide)
    simp only [happ, hne, if_false, dropText_append, h1, h2, if_true, base64Decode_encode]

/-- C18: for every record whose nonce and balance are `uint64` values and whatever its
code hash (nil, empty or not), `Marshal` returns an encoding and `Unmarshal` of that
encoding into a zero record returns the same record: nonce, balance and code hash are
equal to those of the record, the code hash byte for byte and nil for nil. -/
theorem marshal_unmarshal_roundtrip (E : Env) (hE : E.jsonMarshal = json.Marshal)
    (r : innerAccount) (hn : r.Nonce < 2 ^ 64) (hb : r.Balance < 2 ^ 64) :
    ∃ data, r.Marshal E = some data ∧
      innerAccount.Unmarshal { Nonce := 0, Balance := 0, CodeHash := none } data = some r := by
  obtain ⟨data, hm, hu⟩ := json_roundtrip r { Nonce := 0, Balance := 0, CodeHash := none } hn hb
  refine ⟨data, ?_, hu⟩
  unfold innerAccount.Marshal
  rw [hE]
  exact hm

/-- Witness of C18: the record with nonce 1, balance 5 and the code hash `[7, 0]`. -/
theorem marshal_unmarshal_roundtrip_witness :
    jsonEnv.jsonMarshal = json.Marshal ∧ (1 : Nat) < 2 ^ 64 ∧ (5 : Nat) < 2 ^ 64 ∧
    ∃ data, innerAccount.Marshal jsonEnv { Nonce := 1, Balance := 5, CodeHash := some [7, 0] } =
        some data ∧
      innerAccount.Unmarshal { Nonce := 0, Balance := 0, CodeHash := none } data =
        some { Nonce := 1, Balance := 5, CodeHash := some [7, 0] } :=
  ⟨rfl, by decide, by decide,
    marshal_unmarshal_roundtrip jsonEnv rfl { Nonce := 1, Balance := 5, CodeHash := some [7, 0] }
      (by decide) (by decide)⟩

/-! ## Commit of a balance and a code -/

theorem SetBalance_SetCodeAndHash_eq (E : Env) (o : Account) (b : Nat) (c : GoBytes)
    (hoa : o.originAccount = none) :
    (o.SetBalance b).SetCodeAndHash E c =
      { o with
        dirtyAccount := some { Nonce := o.GetNonce, Balance := b, CodeHash := some (E.sha256 c.data) }
        dirtyCode := c } := by
  cases hd : o.dirtyAccount with
  | some d => simp [Account.SetBalance, Account.SetCodeAndHash, Account.GetNonce, hd]
  | none =>
    simp [Account.SetBalance, Account.SetCodeAndHash, Account.GetNonce, hd, hoa,
      copyOrNewIfEmpty]

/-- C14 (as amended): on an account with absent origin account and absent origin code,
after `SetBalance(b)` and `SetCodeAndHash(c)` with a non-empty `c`, `getJournalIfModified`
puts the marshaled record {nonce n, balance b, code_hash SHA-256(c)} under the account
key, where n is the nonce the account had before (0 when it had no dirty record), and `c`
under the code key, before the slot operations, and returns an entry with
`account_changed` and `code_changed` set and both pre-images absent. -/
theorem balance_and_code_commit (E : Env) (o : Account) (order : List (GoString × GoBytes))
    (batch : Batch) (b : Nat) (c data : List Byte)
    (hoa : o.originAccount = none) (hoc : o.originCode = none) (hc : c ≠ [])
    (hperm : order.Perm o.dirtyState.entries) (hkeys : o.dirtyKeysEncoded)
    (hm : innerAccount.Marshal E
      { Nonce := o.GetNonce, Balance := b, CodeHash := some (E.sha256 c) } = some data) :
    ∃ o2 j,
      ((o.SetBalance b).SetCodeAndHash E (some c)).getJournalIfModified E order batch =
        some (o2,
          batch ++ [BatchOp.Put (compositeKey accountKey o.Addr.Hex) (some data),
              BatchOp.Put (compositeKey codeKey o.Addr.Hex) (some c)] ++
            (order.filter o.slotChanged).map o.slotOp,
          some j) ∧
      j.AccountChanged = true ∧ j.CodeChanged = true ∧
      j.PrevAccount = none ∧ j.PrevCode = none ∧
      (o.dirtyAccount = none → o.GetNonce = 0) := by
  rw [SetBalance_SetCodeAndHash_eq E o b (some c) hoa]
  generalize ho' : ({ o with
      dirtyAccount :=
        some { Nonce := o.GetNonce, Balance := b, CodeHash := some (E.sha256 (GoBytes.data (some c))) }
      dirtyCode := some c } : Account) = o'
  have hA : o'.Addr = o.Addr := by rw [← ho']
  have h1 : o'.originAccount = none := by rw [← ho']; exact hoa
  have h2 : o'.dirtyAccount =
      some { Nonce := o.GetNonce, Balance := b, CodeHash := some (E.sha256 c) } := by
    rw [← ho']; rfl
  have h3 : o'.originCode = none := by rw [← ho']; exact hoc
  have h4 : o'.dirtyCode = some c := by rw [← ho']
  have hds : o'.dirtyState = o.dirtyState := by rw [← ho']
  have hsc : o'.slotChanged = o.slotChanged := by
    funext e; unfold Account.slotChanged; rw [← ho']
  have hso : o'.slotOp = o.slotOp := by
    funext e; unfold Account.slotOp Address.Bytes; rw [← ho']
  have hkeys' : o'.dirtyKeysEncoded := by
    unfold Account.dirtyKeysEncoded; rw [hds]; exact hkeys
  have hperm' : order.Perm o'.dirtyState.entries := by rw [hds]; exact hperm
  have ha : o'.journalAccount E batch o'.newEntry =
      some (batch ++ [BatchOp.Put (compositeKey accountKey o'.Addr.Hex) (some data)],
        { o'.newEntry with AccountChanged := true, PrevAccount := none }) := by
    unfold Account.journalAccount
    simp only [h1, h2, innerAccountChanged, if_true, hm]
  have hl : o'.loadOriginCode = some o' := by
    simp [Account.loadOriginCode, h1, h3]
  have hE : bytes.Equal none (some c) = false := by
    simp only [bytes.Equal, GoBytes.data, Option.getD_none, Option.getD_some,
      decide_eq_false_iff_not]
    exact fun h => hc h.symm
  have hjc : ∀ (bb : Batch) (e : journal), o'.journalCode bb e =
      (bb ++ [BatchOp.Put (compositeKey codeKey o'.Addr.Hex) (some c)],
        { e with CodeChanged := true, PrevCode := none }) := by
    intro bb e
    simp [Account.journalCode, h3, h4, hE]
  have hst := getStateJournalAndComputeHash_encoded E o' order
    (batch ++ [BatchOp.Put (compositeKey accountKey o'.Addr.Hex) (some data)] ++
      [BatchOp.Put (compositeKey codeKey o'.Addr.Hex) (some c)]) hperm' hkeys'
  have hres : o'.getJournalIfModified E order batch =
      some ({ o' with dirtyStateHash := E.sha256 (o'.dirtyStateData
              (sort.Strings ((order.filter o'.slotChanged).map Prod.fst)) []) },
        batch ++ [BatchOp.Put (compositeKey accountKey o'.Addr.Hex) (some data)] ++
            [BatchOp.Put (compositeKey codeKey o'.Addr.Hex) (some c)] ++
          (order.filter o'.slotChanged).map o'.slotOp,
        journalStates
          { o'.newEntry with
            AccountChanged := true, PrevAccount := none, CodeChanged := true, PrevCode := none }
          (o'.prevStatesFrom (order.filter o'.slotChanged) GoMap.empty)) := by
    unfold Account.getJournalIfModified
    simp only
    have ha' : o'.journalAccount E batch
        { Address := o'.Addr, AccountChanged := false, PrevAccount := none,
          CodeChanged := false, PrevCode := none, PrevStates := GoMap.empty } =
        some (batch ++ [BatchOp.Put (compositeKey accountKey o'.Addr.Hex) (some data)],
          { o'.newEntry with AccountChanged := true, PrevAccount := none }) := ha
    rw [ha']
    simp only [hl, hjc, hst]
  have hj : ∃ j, journalStates
      { o'.newEntry with
        AccountChanged := true, PrevAccount := none, CodeChanged := true, PrevCode := none }
      (o'.prevStatesFrom (order.filter o'.slotChanged) GoMap.empty) = some j ∧
      j.AccountChanged = true ∧ j.CodeChanged = true ∧
      j.PrevAccount = none ∧ j.PrevCode = none := by
    unfold journalStates
    simp only
    split_ifs <;> first | exact ⟨_, rfl, rfl, rfl, rfl, rfl⟩ | simp_all
  obtain ⟨j, hjs, hj1, hj2, hj3, hj4⟩ := hj
  rw [hjs, hsc, hso, hA] at hres
  have hnonce : o.dirtyAccount = none → o.GetNonce = 0 := by
    intro hd
    simp [Account.GetNonce, hd, hoa]
  simp only [List.append_assoc, List.cons_append, List.nil_append] at hres ⊢
  exact ⟨_, j, hres, hj1, hj2, hj3, hj4, hnonce⟩

/-- Witness of C14 (as amended): a fresh account of `addr1` over the empty store, balance
100 and the code `[0x60, 0x60]`, committed into a fresh batch. -/
theorem balance_and_code_commit_witness :
    (newAccount storeEmpty.toStorage addr1).originAccount = none ∧
    (newAccount storeEmpty.toStorage addr1).originCode = none ∧
    ∃ data,
      innerAccount.Marshal jsonEnv
        { Nonce := 0, Balance := 100, CodeHash := some (jsonEnv.sha256 [0x60, 0x60]) } =
          some data ∧
      ∃ o2 j,
        (((newAccount storeEmpty.toStorage addr1).SetBalance 100).SetCodeAndHash jsonEnv
            (some [0x60, 0x60])).getJournalIfModified jsonEnv [] [] =
          some (o2,
            [] ++ [BatchOp.Put (compositeKey accountKey addr1.Hex) (some data),
                BatchOp.Put (compositeKey codeKey addr1.Hex) (some [0x60, 0x60])] ++
              ([].filter (newAccount storeEmpty.toStorage addr1).slotChanged).map
                (newAccount storeEmpty.toStorage addr1).slotOp,
            some j) ∧
        j.AccountChanged = true ∧ j.CodeChanged = true ∧
        j.PrevAccount = none ∧ j.PrevCode = none ∧
        ((newAccount storeEmpty.toStorage addr1).dirtyAccount = none →
          (newAccount storeEmpty.toStorage addr1).GetNonce = 0) :=
  ⟨rfl, rfl, _, rfl,
    balance_and_code_commit jsonEnv (newAccount storeEmpty.toStorage addr1) [] [] 100
      [0x60, 0x60] _ rfl rfl (by decide) (List.Perm.refl _)
      (by unfold Account.dirtyKeysEncoded; decide) rfl⟩

/-- C14, counterexample: on a fresh account of `addr1` (origin account and origin code
absent) `SetNonce(7)` is called first; after `SetBalance(100)` and
`SetCodeAndHash([0x60, 0x60])` the commit puts under the account key the encoding of the
record with nonce 7, which is not the encoding of the record with nonce 0. -/
theorem balance_and_code_commit_nonce :
    accountNonce.originAccount = none ∧ accountNonce.originCode = none ∧
    ((((accountNonce.SetBalance 100).SetCodeAndHash jsonEnv
        (some [0x60, 0x60])).getJournalIfModified jsonEnv [] []).map (fun r => r.2.1)) =
      some [BatchOp.Put (compositeKey accountKey addr1.Hex)
          (json.Marshal
            { Nonce := 7, Balance := 100, CodeHash := some (jsonEnv.sha256 [0x60, 0x60]) }),
        BatchOp.Put (compositeKey codeKey addr1.Hex) (some [0x60, 0x60])] ∧
    json.Marshal { Nonce := 7, Balance := 100, CodeHash := some (jsonEnv.sha256 [0x60, 0x60]) } ≠
      json.Marshal { Nonce := 0, Balance := 100, CodeHash := some (jsonEnv.sha256 [0x60, 0x60]) } := by
  refine ⟨rfl, rfl, rfl, by decide⟩

end Ledger

namespace Etcdraft

/-- C20: for a configuration that was read successfully, `generateRaftConfig` returns a
config whose `ElectionTick`, `HeartbeatTick`, `MaxSizePerMsg` and `MaxInflightMsgs` are
the file's value when that value is greater than 0 and the default (10, 1, 1048576 and
500) otherwise, and whose `PreVote`, `CheckQuorum` and `DisableProposalForwarding` are
the file's values whatever they are, so that a default of true is not kept when the
file's value is false. -/
theorem generateRaftConfig_fields {S L : Type} (id : Nat) (file : RAFTConfig)
    (logger : L) (ram : S) :
    (generateRaftConfig id (some file) logger ram).ElectionTick =
      (if file.RAFT.ElectionTick > 0 then file.RAFT.ElectionTick else 10) ∧
    (generateRaftConfig id (some file) logger ram).HeartbeatTick =
      (if file.RAFT.HeartbeatTick > 0 then file.RAFT.HeartbeatTick else 1) ∧
    (generateRaftConfig id (some file) logger ram).MaxSizePerMsg =
      (if file.RAFT.MaxSizePerMsg > 0 then file.RAFT.MaxSizePerMsg else 1048576) ∧
    (generateRaftConfig id (some file) logger ram).MaxInflightMsgs =
      (if file.RAFT.MaxInflightMsgs > 0 then file.RAFT.MaxInflightMsgs else 500) ∧
    (generateRaftConfig id (some file) logger ram).PreVote = file.RAFT.PreVote ∧
    (generateRaftConfig id (some file) logger ram).CheckQuorum = file.RAFT.CheckQuorum ∧
    (generateRaftConfig id (some file) logger ram).DisableProposalForwarding =
      file.RAFT.DisableProposalForwarding ∧
    (defaultRaftConfig S L).PreVote = true ∧ (defaultRaftConfig S L).CheckQuorum = true ∧
    (defaultRaftConfig S L).DisableProposalForwarding = true := by
  by_cases h1 : file.RAFT.ElectionTick > 0 <;> by_cases h2 : file.RAFT.HeartbeatTick > 0 <;>
    by_cases h3 : file.RAFT.MaxSizePerMsg > 0 <;> by_cases h4 : file.RAFT.MaxInflightMsgs > 0 <;>
    simp [generateRaftConfig, defaultRaftConfig, Config.zero, h1, h2, h3, h4]

end Etcdraft
